import Mathlib

/-!
# Verification of the godx storage-contract / upload-repair core

A shallow embedding, in Lean 4, of the parts of the godx repository that the
checked properties talk about:

* `ClientPayoutsPreTax` and the contract-renew maintenance functions from
  `storage/storageclient/contractmanager/contractrenew.go`;
* the upload heap (`container/heap` over `uploadSegmentHeap`) and
  `createUnfinishedSegments` from `storage/storageclient/uploadheap.go`;
* `FilterIPViolationHosts` from the storage host manager;
* the DPoS precompile validation from
  `internal/ethapi/precompiled_contract_tx_api.go`; and
* `checkValidCandidate` from `consensus/dpos/candidate.go`.

Go `*big.Int` / `common.BigInt` values are modelled as `Int` (they are
arbitrary-precision integers); Go `uint64` values as `Nat`.  Where the Go code
calls `big.Int.Div`, the model uses `Int.ediv`, which has the same Euclidean
semantics.  Functions that can return a Go `error` return `Option`/`Except`.
-/

namespace Godx

/-!
## §1  `ClientPayoutsPreTax`
(`storage/storageclient/contractmanager/contractrenew.go`, lines 500–538)

The Go function mutates its `big.Int`s in place.  In particular the final

```go
hostCollateral.Add(hostCollateral, host.ContractPrice)
hostPayout = hostCollateral.Add(hostCollateral, basePrice)
```

adds `ContractPrice` and `basePrice` into the *same* `big.Int` that is returned
as `hostCollateral`, and `hostPayout` aliases it; so the two returned values are
equal.  The embedding below reproduces the returned values.
-/

structure StorageHostEntry where
  storagePrice : Int
  contractPrice : Int
  collateral : Int
  maxCollateral : Int
deriving DecidableEq, Repr

structure Payouts where
  clientPayout : Int
  hostPayout : Int
  hostCollateral : Int
deriving DecidableEq, Repr

/-- Embedding of `ClientPayoutsPreTax`.  `none` models the
`"underflow detected, funding < contractPrice"` error return. -/
def ClientPayoutsPreTax (host : StorageHostEntry) (funding basePrice baseCollateral : Int)
    (period expectedStorage : Nat) : Option Payouts :=
  -- Divide by zero check: `host.StoragePrice.SetInt64(1)`
  let sp : Int := if host.storagePrice = 0 then 1 else host.storagePrice
  -- Underflow check: `funding.Cmp(host.ContractPrice) <= 0`
  if funding ≤ host.contractPrice then none
  else
    let clientPayout := funding - host.contractPrice - basePrice
    let maxStorageSizeTime := clientPayout.ediv sp * host.collateral
    let hostCollateral0 := maxStorageSizeTime + baseCollateral
    let maxClientCollateral := host.collateral * (period : Int) * (expectedStorage : Int) * 5
    let c1 := if maxClientCollateral < hostCollateral0 then maxClientCollateral else hostCollateral0
    let c2 := if host.maxCollateral < c1 then host.maxCollateral else c1
    some { clientPayout := clientPayout
           hostPayout := c2 + host.contractPrice + basePrice
           hostCollateral := c2 + host.contractPrice + basePrice }

/-- The `hostCollateral` value that the claim asserts is returned:
`min((clientPayout / storagePrice) * collateral + baseCollateral,
collateral * period * expectedStorage * 5, maxCollateral)`, with
`storagePrice` replaced by 1 when zero.  (It is the intermediate value the Go
code computes before the in-place additions.) -/
def claimedHostCollateral (host : StorageHostEntry) (funding basePrice baseCollateral : Int)
    (period expectedStorage : Nat) : Int :=
  let sp : Int := if host.storagePrice = 0 then 1 else host.storagePrice
  let clientPayout := funding - host.contractPrice - basePrice
  min (min (clientPayout.ediv sp * host.collateral + baseCollateral)
        (host.collateral * (period : Int) * (expectedStorage : Int) * 5))
    host.maxCollateral

/-- A concrete host used to refute the claimed `hostCollateral` shape. -/
def c1Host : StorageHostEntry :=
  { storagePrice := 1, contractPrice := 1, collateral := 1, maxCollateral := 1000 }

/-- C1 counterexample: with storagePrice = contractPrice = collateral = 1,
maxCollateral = 1000, funding = 10, basePrice = baseCollateral = 0, period =
expectedStorage = 1, the minimum of the three candidate collaterals is 5, but
the function returns `hostCollateral = 6` (the in-place additions of
`ContractPrice` and `basePrice` leak into the returned collateral). -/
theorem clientPayoutsPreTax_hostCollateral_not_min :
    (ClientPayoutsPreTax c1Host 10 0 0 1 1).map Payouts.hostCollateral ≠
      some (claimedHostCollateral c1Host 10 0 0 1 1) := by
  decide

/-- C1 (amended): for funding strictly above `ContractPrice`,
`ClientPayoutsPreTax` returns without error `clientPayout = funding −
ContractPrice − basePrice` and returns as *both* `hostPayout` and
`hostCollateral` the value `M + ContractPrice + basePrice`, where `M` is the
three-way minimum the claim calls `hostCollateral`; for funding at most
`ContractPrice` it returns the underflow error and no payouts. -/
theorem clientPayoutsPreTax_spec (host : StorageHostEntry)
    (funding basePrice baseCollateral : Int) (period expectedStorage : Nat) :
    (funding ≤ host.contractPrice →
      ClientPayoutsPreTax host funding basePrice baseCollateral period expectedStorage = none) ∧
    (host.contractPrice < funding →
      ClientPayoutsPreTax host funding basePrice baseCollateral period expectedStorage =
        some { clientPayout := funding - host.contractPrice - basePrice
               hostPayout := claimedHostCollateral host funding basePrice baseCollateral
                   period expectedStorage + host.contractPrice + basePrice
               hostCollateral := claimedHostCollateral host funding basePrice baseCollateral
                   period expectedStorage + host.contractPrice + basePrice }) := by
  constructor
  · intro h
    simp [ClientPayoutsPreTax, h]
  · intro h
    have h' : ¬ funding ≤ host.contractPrice := not_le.mpr h
    simp only [ClientPayoutsPreTax, claimedHostCollateral, h', if_false]
    congr 1
    have hmin : ∀ a b : Int, (if b < a then b else a) = min a b := by
      intro a b
      rcases lt_or_ge b a with hlt | hge
      · simp [hlt, min_eq_right hlt.le]
      · simp [not_lt.mpr hge, min_eq_left hge]
    simp only [hmin]

/-- Witness for `clientPayoutsPreTax_spec` at a concrete input. -/
theorem clientPayoutsPreTax_spec_witness :
    ClientPayoutsPreTax c1Host 10 0 0 1 1 =
      some { clientPayout := 9
             hostPayout := claimedHostCollateral c1Host 10 0 0 1 1 + 1 + 0
             hostCollateral := claimedHostCollateral c1Host 10 0 0 1 1 + 1 + 0 } := by
  have h := (clientPayoutsPreTax_spec c1Host 10 0 0 1 1).2 (by decide)
  simpa [c1Host] using h

/-!
## §2  `checkForContractRenew`
(`storage/storageclient/contractmanager/contractrenew.go`, lines 37–85)

The host lookup (`hostManager.RetrieveHostInfo`), the close-to-expire cost
estimate (`renewCostEstimation`), the sector size (`contractset.SectorSize`)
and the threshold constant (`minContractPaymentRenewalThreshold`) live outside
the given sources, so they are parameters of the embedding.

The remaining-balance test `ClientBalance.Div(TotalCost).Float64() <
minContractPaymentRenewalThreshold` uses `common.BigInt` helpers that are also
outside the sources.  Modelled from the spec: *insufficient-funding if …
`ClientBalance / TotalCost < minContractPaymentRenewalThreshold`*, read as an
exact rational comparison; the threshold is a fraction `thrNum / thrDen` and
the comparison is written by cross-multiplication, which is exact for the
positive `TotalCost` every funded contract has.
-/

structure HostInfoRenew where
  filtered : Bool
  storagePrice : Int
  uploadBandwidthPrice : Int
  downloadBandwidthPrice : Int
deriving DecidableEq, Repr

structure ContractMetaData where
  id : Nat
  enodeID : Nat
  endHeight : Nat
  totalCost : Int
  clientBalance : Int
  renewAbility : Bool
deriving DecidableEq, Repr

structure RentPayment where
  renewWindow : Nat
  period : Nat
deriving DecidableEq, Repr

structure ContractRenewRecord where
  id : Nat
  cost : Int
deriving DecidableEq, Repr

/-- Embedding of `checkForContractRenew`: loop over the active contracts,
appending close-to-expire records to the first bucket and
insufficient-funding records to the second. -/
def checkForContractRenew
    (retrieveHostInfo : Nat → Option HostInfoRenew)
    (renewCostEstimation : HostInfoRenew → ContractMetaData → Nat → RentPayment → Int)
    (sectorSize : Nat) (thrNum thrDen : Nat)
    (blockHeight : Nat) (rent : RentPayment)
    (contracts : List ContractMetaData) :
    List ContractRenewRecord × List ContractRenewRecord :=
  contracts.foldl
    (fun acc contract =>
      match retrieveHostInfo contract.enodeID with
      | none => acc
      | some host =>
        if host.filtered then acc
        else if contract.renewAbility = false then acc
        else if contract.endHeight ≤ blockHeight + rent.renewWindow then
          (acc.1 ++ [⟨contract.id, renewCostEstimation host contract blockHeight rent⟩], acc.2)
        else
          let sectorStorageCost := host.storagePrice * ((sectorSize * rent.period : Nat) : Int)
          let sectorUploadBandwidthCost := host.uploadBandwidthPrice * (sectorSize : Int)
          let sectorDownloadBandwidthCost := host.downloadBandwidthPrice * (sectorSize : Int)
          let totalSectorCost :=
            sectorUploadBandwidthCost + sectorDownloadBandwidthCost + sectorStorageCost
          -- remainingBalancePercentage < minContractPaymentRenewalThreshold
          if contract.clientBalance < totalSectorCost * 3 ∨
              contract.clientBalance * (thrDen : Int) < (thrNum : Int) * contract.totalCost then
            (acc.1, acc.2 ++ [⟨contract.id, contract.totalCost * 2⟩])
          else acc)
    ([], [])

/-- Concrete host for the C2 scenarios: with `sectorSize = 1` and
`period = 1` the per-sector cost is `30 + 20 + 50 = 100`. -/
def c2Host : HostInfoRenew :=
  { filtered := false, storagePrice := 50, uploadBandwidthPrice := 30
    downloadBandwidthPrice := 20 }

def c2Contract : ContractMetaData :=
  { id := 1, enodeID := 5, endHeight := 1000, totalCost := 10000
    clientBalance := 299, renewAbility := true }

def c2Rent : RentPayment := { renewWindow := 100, period := 1 }

def c2Lookup : Nat → Option HostInfoRenew := fun _ => some c2Host

def c2Est : HostInfoRenew → ContractMetaData → Nat → RentPayment → Int := fun _ _ _ _ => 7

/-- C2 counterexample: with `EndHeight = 1000` and `RenewWindow = 100`, at
height 899 the close-to-expire bucket is empty (`899 + 100 = 999 < 1000`), so
the claim's "height 899 is classified close-to-expire" is false on the code.
(The contract lands in the insufficient-funding bucket instead.) -/
theorem checkForContractRenew_899_not_close :
    (checkForContractRenew c2Lookup c2Est 1 1 20 899 c2Rent [c2Contract]).1 = [] := by
  decide

/-- C2 (amended): a contract whose host exists and is unfiltered and whose
`RenewAbility` is true is put in the close-to-expire bucket iff
`blockHeight + RenewWindow ≥ EndHeight`, and otherwise in the
insufficient-funding bucket (with cost `TotalCost * 2`) iff
`ClientBalance < 3 × (upload + download + storage sector cost)` or
`ClientBalance / TotalCost` is below the threshold.  In particular with
`EndHeight = 1000` and `RenewWindow = 100`, height 900 is close-to-expire and
height 899 is not; and with sector unit cost 100, `ClientBalance = 299`,
`TotalCost = 10000` and threshold `1/20`, the contract is classified
insufficient-funding. -/
theorem checkForContractRenew_classify
    (retrieveHostInfo : Nat → Option HostInfoRenew)
    (renewCostEstimation : HostInfoRenew → ContractMetaData → Nat → RentPayment → Int)
    (sectorSize : Nat) (thrNum thrDen : Nat) (blockHeight : Nat) (rent : RentPayment)
    (c : ContractMetaData) (h : HostInfoRenew)
    (hh : retrieveHostInfo c.enodeID = some h)
    (hf : h.filtered = false) (hr : c.renewAbility = true) :
    (checkForContractRenew retrieveHostInfo renewCostEstimation sectorSize thrNum thrDen
        blockHeight rent [c] =
      if c.endHeight ≤ blockHeight + rent.renewWindow then
        ([⟨c.id, renewCostEstimation h c blockHeight rent⟩], [])
      else if c.clientBalance <
            (h.uploadBandwidthPrice * (sectorSize : Int) +
              h.downloadBandwidthPrice * (sectorSize : Int) +
              h.storagePrice * ((sectorSize * rent.period : Nat) : Int)) * 3 ∨
          c.clientBalance * (thrDen : Int) < (thrNum : Int) * c.totalCost then
        ([], [⟨c.id, c.totalCost * 2⟩])
      else ([], [])) ∧
    (checkForContractRenew c2Lookup c2Est 1 1 20 900 c2Rent [c2Contract]).1 = [⟨1, 7⟩] ∧
    (checkForContractRenew c2Lookup c2Est 1 1 20 899 c2Rent [c2Contract]).1 = [] ∧
    (checkForContractRenew c2Lookup c2Est 1 1 20 899 c2Rent [c2Contract]).2 = [⟨1, 20000⟩] := by
  refine ⟨?_, by decide, by decide, by decide⟩
  simp only [checkForContractRenew, List.foldl_cons, List.foldl_nil, hh, hf, hr,
    Bool.false_eq_true, Bool.true_eq_false, if_false]
  split
  · simp
  · split
    · simp
    · simp

/-- Witness for `checkForContractRenew_classify` at the concrete scenario. -/
theorem checkForContractRenew_classify_witness :
    checkForContractRenew c2Lookup c2Est 1 1 20 899 c2Rent [c2Contract] =
      ([], [⟨1, 20000⟩]) := by
  have h := checkForContractRenew_classify c2Lookup c2Est 1 1 20 899 c2Rent
    c2Contract c2Host rfl rfl rfl
  rw [h.1]
  decide

/-!
## §3  `prepareContractRenew`
(`storage/storageclient/contractmanager/contractrenew.go`, lines 116–148)

The loop body compares each record's cost against the *parameter*
`clientRemainingFund`, which is never reassigned, and overwrites the named
return `remainingFund` with `clientRemainingFund.Sub(renewCost)`; the named
return starts at the `common.BigInt` zero value.  The embedding keeps all of
that, and additionally records which renewals were executed (the observable
calls to `contractRenewStart`).  `outcome k r` abstracts the `renewCost`
returned by the `k`-th `contractRenewStart` call (the error is only logged),
and `terminate k` abstracts `checkMaintenanceTermination` after it.
-/

/-- Loop of `prepareContractRenew`.  Arguments after the record list:
executed-call counter, current `remainingFund` named return, executed ids. -/
def prepareContractRenewGo (outcome : Nat → ContractRenewRecord → Int)
    (terminate : Nat → Bool) (clientRemainingFund : Int) :
    List ContractRenewRecord → Nat → Int → List Nat → Int × List Nat × Bool
  | [], _, remainingFund, executed => (remainingFund, executed, false)
  | r :: rest, k, remainingFund, executed =>
    if clientRemainingFund < r.cost then
      prepareContractRenewGo outcome terminate clientRemainingFund rest k remainingFund executed
    else
      let renewCost := outcome k r
      let remainingFund' := clientRemainingFund - renewCost
      if terminate k then (remainingFund', executed ++ [r.id], true)
      else
        prepareContractRenewGo outcome terminate clientRemainingFund rest (k + 1)
          remainingFund' (executed ++ [r.id])

/-- Embedding of `prepareContractRenew`: returns the `remainingFund` named
return, the ids of the renewals executed, and the `terminate` flag. -/
def prepareContractRenew (outcome : Nat → ContractRenewRecord → Int)
    (terminate : Nat → Bool) (records : List ContractRenewRecord)
    (clientRemainingFund : Int) : Int × List Nat × Bool :=
  prepareContractRenewGo outcome terminate clientRemainingFund records 0 0 []

/-- C3: the budget bookkeeping is broken in the code.  With initial fund 30
and two records of cost 10 whose renewals both succeed, the function returns
remaining fund 20 = 30 − 10 (only the last cost is subtracted), not
30 − 20 = 10 as the claim states; with initial fund 15 it executes *both*
renewals although the remaining fund after the first (5) is below the second
cost; and with no records it returns 0, not the initial fund. -/
theorem prepareContractRenew_staleFund :
    prepareContractRenew (fun _ r => r.cost) (fun _ => false) [⟨1, 10⟩, ⟨2, 10⟩] 30 =
        (20, [1, 2], false) ∧
    prepareContractRenew (fun _ r => r.cost) (fun _ => false) [⟨1, 10⟩, ⟨2, 10⟩] 15 =
        (5, [1, 2], false) ∧
    prepareContractRenew (fun _ r => r.cost) (fun _ => false) [] 30 = (0, [], false) := by
  decide

/-!
## §4  `contractRenewStart`
(`storage/storageclient/contractmanager/contractrenew.go`, lines 155–256)

The outcomes of the stateful sub-operations are abstracted into an
environment record.  The two inner failure branches after a successful
negotiation end in a *naked* `return` whose shadowed `err := ...; err = nil`
never assigns the named `err`, so every path after a successful `cm.renew()`
returns `(renewContractCost, nil)`; the embedding mirrors that control flow.
-/

structure ContractStatus where
  uploadAbility : Bool
  renewAbility : Bool
  canceled : Bool
deriving DecidableEq, Repr

inductive RenewErr
  | noLongerExists
  | unableToRenew
  | renewFailedCanceled
  | renewFailed
deriving DecidableEq, Repr

/-- Embedding of `handleRenewFailed` (lines 259–287): returns the error that
is handed back; the cancel-status write inside it is only logged. -/
def handleRenewFailed (consecFails numFailed blockHeight renewWindow endHeight : Nat) :
    RenewErr :=
  let secondHalfRenewWindow := endHeight ≤ blockHeight + renewWindow / 2
  let contractReplace := consecFails ≤ numFailed
  if secondHalfRenewWindow ∧ contractReplace then .renewFailedCanceled else .renewFailed

structure RenewStartEnv where
  /-- `activeContracts.Acquire` found the contract. -/
  acquireOk : Bool
  /-- `retrieveContractStatus` result (`none` = not found). -/
  status : Option ContractStatus
  /-- `cm.renew()` result: `some id` of the renewed contract, `none` = error. -/
  renewedContract : Option Nat
  /-- `cm.updateContractStatus(renewedContract.ID, …)` succeeded. -/
  updateRenewedStatusOk : Bool
  /-- `activeContracts.Return` inside the update-failure branch succeeded. -/
  returnAfterUpdateFailOk : Bool
  /-- `contract.UpdateStatus(stats)` on the old contract succeeded. -/
  updateOldStatusOk : Bool
  /-- `activeContracts.Return` inside the old-status-failure branch succeeded. -/
  returnAfterOldFailOk : Bool
  /-- `cm.failedRenewCount[id]` for `handleRenewFailed`. -/
  numFailed : Nat
deriving DecidableEq, Repr

/-- Embedding of `contractRenewStart`: the returned `(renewCost, err)` pair. -/
def contractRenewStart (env : RenewStartEnv) (record : ContractRenewRecord)
    (blockHeight : Nat) (rent : RentPayment) (endHeight : Nat) (consecFails : Nat) :
    Int × Option RenewErr :=
  if env.acquireOk = false then (0, some .noLongerExists)
  else
    match env.status with
    | none => (0, some .unableToRenew)
    | some stats =>
      if stats.renewAbility = false then (0, some .unableToRenew)
      else
        match env.renewedContract with
        | none =>
          (0, some (handleRenewFailed consecFails env.numFailed blockHeight
            rent.renewWindow endHeight))
        | some _ =>
          if env.updateRenewedStatusOk = false ∧ env.returnAfterUpdateFailOk = false then
            -- naked return: named renewCost set, named err never assigned
            (record.cost, none)
          else if env.updateOldStatusOk = false ∧ env.returnAfterOldFailOk = false then
            (record.cost, none)
          else (record.cost, none)

/-- C8: when the renew negotiation succeeds (`cm.renew()` returns a contract)
but the subsequent `updateContractStatus` of the renewed contract fails,
`contractRenewStart` returns the record's estimated cost as `renewCost`
together with `err = nil`: the partially committed renewal is reported as a
success. -/
theorem contractRenewStart_updateFail_ok (env : RenewStartEnv)
    (record : ContractRenewRecord) (blockHeight : Nat) (rent : RentPayment)
    (endHeight consecFails : Nat) (stats : ContractStatus) (newId : Nat)
    (ha : env.acquireOk = true) (hs : env.status = some stats)
    (hra : stats.renewAbility = true) (hr : env.renewedContract = some newId)
    (hu : env.updateRenewedStatusOk = false) :
    contractRenewStart env record blockHeight rent endHeight consecFails =
      (record.cost, none) := by
  simp only [contractRenewStart, ha, hs, hra, hr, Bool.true_eq_false, if_false]
  by_cases hret : env.returnAfterUpdateFailOk = false
  · simp [hu, hret]
  · by_cases hold : env.updateOldStatusOk = false ∧ env.returnAfterOldFailOk = false
    · simp [hu, hret, hold]
    · simp [hu, hret, hold]

/-- Witness for `contractRenewStart_updateFail_ok`. -/
theorem contractRenewStart_updateFail_ok_witness :
    contractRenewStart
      { acquireOk := true, status := some ⟨true, true, false⟩, renewedContract := some 2
        updateRenewedStatusOk := false, returnAfterUpdateFailOk := true
        updateOldStatusOk := true, returnAfterOldFailOk := true, numFailed := 0 }
      ⟨1, 42⟩ 10 ⟨100, 3⟩ 1000 3 = (42, none) :=
  contractRenewStart_updateFail_ok _ _ _ _ _ _ ⟨true, true, false⟩ 2 rfl rfl rfl rfl rfl

/-!
## §5  `createUnfinishedSegments` sector marking
(`storage/storageclient/uploadheap.go`, lines 185–218)

The loop that should mark which hosts are already used synthesizes
`contractUtility := storage.ContractUtility{}` (the zero value, so
`GoodForRenew = false`) for *every* sector's host — the real
`storageHostManager.ContractUtility` lookup is commented out — and then
`continue`s when `!contractUtility.GoodForRenew`.  Host ids are modelled as
`Nat` (the Go code keys the map by the `EnodeID` string).
-/

structure ContractUtility where
  goodForUpload : Bool
  goodForRenew : Bool
deriving DecidableEq, Repr

/-- The `storage.ContractUtility{}` zero value from line 201. -/
def zeroContractUtility : ContractUtility := ⟨false, false⟩

/-- The per-segment state the marking loop reads and writes. -/
structure UnfinishedSegmentState where
  unusedHosts : List Nat
  sectorSlotsStatus : List Bool
  sectorsCompletedNum : Nat
deriving DecidableEq, Repr

structure SectorInfo where
  hostID : Nat
deriving DecidableEq, Repr

/-- Embedding of the innermost loop body (lines 192–216) for one sector. -/
def markSector (seg : UnfinishedSegmentState) (sectorIndex : Nat) (sector : SectorInfo) :
    UnfinishedSegmentState :=
  let contractUtility := zeroContractUtility
  if contractUtility.goodForRenew = false then seg   -- `continue`
  else
    let exists_ := sector.hostID ∈ seg.unusedHosts
    let redundantSector := seg.sectorSlotsStatus.getD sectorIndex false
    if exists_ ∧ redundantSector = false then
      { unusedHosts := seg.unusedHosts.erase sector.hostID
        sectorSlotsStatus := seg.sectorSlotsStatus.set sectorIndex true
        sectorsCompletedNum := seg.sectorsCompletedNum + 1 }
    else if exists_ then { seg with unusedHosts := seg.unusedHosts.erase sector.hostID }
    else seg

/-- Embedding of the two nested loops over `sectors` (`sectorIndex`,
`sectorSet`) of one segment. -/
def markSegmentSectors (seg : UnfinishedSegmentState) (sectors : List (List SectorInfo)) :
    UnfinishedSegmentState :=
  (sectors.enum).foldl
    (fun s p => p.2.foldl (fun s' sec => markSector s' p.1 sec) s) seg

/-- C4 counterexample: a segment whose only sector lives on host 7, host 7 in
`unusedHosts`, slot bit clear — and host 7's real contract as GoodForRenew as
one likes (the code never consults it).  The claim requires host 7 removed,
the slot set and the counter incremented (state `⟨[], [true], 1⟩`); the code
leaves the segment untouched. -/
theorem createUnfinishedSegments_marking_dead :
    markSegmentSectors ⟨[7], [false], 0⟩ [[⟨7⟩]] = ⟨[7], [false], 0⟩ ∧
    markSegmentSectors ⟨[7], [false], 0⟩ [[⟨7⟩]] ≠ ⟨[], [true], 1⟩ := by
  decide

/-- C4 (amended): the sector-marking loop of `createUnfinishedSegments` never
modifies the segment state at all: the synthesized zero `ContractUtility{}`
has `GoodForRenew = false` for every sector's host, so every sector is
skipped, and `unusedHosts`, the slot bits and `sectorsCompletedNum` are left
exactly as initialized. -/
theorem markSegmentSectors_id (seg : UnfinishedSegmentState)
    (sectors : List (List SectorInfo)) : markSegmentSectors seg sectors = seg := by
  have hsec : ∀ (s : UnfinishedSegmentState) (i : Nat) (sec : SectorInfo),
      markSector s i sec = s := fun _ _ _ => rfl
  have hfold : ∀ (l : List SectorInfo) (i : Nat) (s : UnfinishedSegmentState),
      l.foldl (fun s' sec => markSector s' i sec) s = s := by
    intro l
    induction l with
    | nil => intro i s; rfl
    | cons x xs ih => intro i s; simp [List.foldl_cons, hsec, ih]
  unfold markSegmentSectors
  generalize sectors.enum = ps
  induction ps with
  | nil => rfl
  | cons p ps ih => simp [List.foldl_cons, hfold, ih]

/-!
## §6  The upload heap
(`storage/storageclient/uploadheap.go`, lines 33–114, and Go `container/heap`)

`uploadSegmentHeap.Less` compares `float64(sectorsCompletedNum) /
float64(sectorsNeedNum)`.  The embedding compares the completion ratios as
exact rationals, by cross-multiplication over `Nat`: for segments with
`0 < sectorsNeedNum ≤ 2^26` (and `sectorsCompletedNum ≤ sectorsNeedNum`, as
the marking loop guarantees) the float64 comparison agrees with the exact
one, because two distinct ratios in `[0, 1]` with such denominators differ by
more than one ulp.  A zero `sectorsNeedNum` would produce a NaN/Inf in Go and
poison the heap order, so the ordering theorems assume positive
`sectorsNeedNum`.

The segment identifier `uploadSegmentID{fid, index}` is abstracted to a
single `id : Nat`.
-/

structure USeg where
  id : Nat
  stuck : Bool
  sectorsCompletedNum : Nat
  sectorsNeedNum : Nat
deriving DecidableEq, Repr

instance : Inhabited USeg := ⟨⟨0, false, 0, 1⟩⟩

/-- Embedding of `uploadSegmentHeap.Less` (lines 39–51). -/
def lessSeg (a b : USeg) : Bool :=
  if a.stuck == b.stuck then
    decide (a.sectorsCompletedNum * b.sectorsNeedNum <
      b.sectorsCompletedNum * a.sectorsNeedNum)
  else a.stuck

theorem lessSeg_irrefl (a : USeg) : lessSeg a a = false := by
  simp [lessSeg]

/-- Cross-multiplied ratio comparison is transitive. -/
theorem natRatioLt_trans {a b c d e f : Nat} (h1 : a * d < c * b) (h2 : c * f < e * d) :
    a * f < e * b := by
  have key : a * d * (c * f) < c * b * (e * d) :=
    mul_lt_mul'' h1 h2 (Nat.zero_le _) (Nat.zero_le _)
  have key2 : c * d * (a * f) < c * d * (e * b) := by
    calc c * d * (a * f) = a * d * (c * f) := by ring
    _ < c * b * (e * d) := key
    _ = c * d * (e * b) := by ring
  exact lt_of_mul_lt_mul_left key2 (Nat.zero_le _)

/-- Cross-multiplied ratio comparison: `≤` is transitive, given a positive
middle denominator. -/
theorem natRatioLe_trans {a b c d e f : Nat} (hd : 0 < d)
    (h1 : a * d ≤ c * b) (h2 : c * f ≤ e * d) : a * f ≤ e * b := by
  rcases Nat.eq_zero_or_pos c with hc | hc
  · subst hc
    simp only [Nat.zero_mul, Nat.le_zero, Nat.mul_eq_zero] at h1
    rcases h1 with h1 | h1
    · simp [h1]
    · omega
  · have key : a * d * (c * f) ≤ c * b * (e * d) :=
      Nat.mul_le_mul h1 h2
    have key2 : c * d * (a * f) ≤ c * d * (e * b) := by
      calc c * d * (a * f) = a * d * (c * f) := by ring
      _ ≤ c * b * (e * d) := key
      _ = c * d * (e * b) := by ring
    exact Nat.le_of_mul_le_mul_left key2 (by positivity)

theorem lessSeg_asymm {a b : USeg} (h : lessSeg a b = true) : lessSeg b a = false := by
  cases ha : a.stuck <;> cases hb : b.stuck <;>
    simp [lessSeg, ha, hb] at h ⊢ <;>
    exact Nat.le_of_lt h

theorem lessSeg_trans {a b c : USeg} (h1 : lessSeg a b = true)
    (h2 : lessSeg b c = true) : lessSeg a c = true := by
  cases ha : a.stuck <;> cases hb : b.stuck <;> cases hc : c.stuck <;>
    simp [lessSeg, ha, hb, hc] at h1 h2 ⊢ <;>
    exact natRatioLt_trans h1 h2

/-- The complement of `Less` is transitive, given a positive middle
denominator: this is where a NaN ratio would break the heap order. -/
theorem lessSeg_notlt_trans {x y z : USeg} (hy : 0 < y.sectorsNeedNum)
    (h1 : lessSeg y x = false) (h2 : lessSeg z y = false) : lessSeg z x = false := by
  cases hx : x.stuck <;> cases hy' : y.stuck <;> cases hz : z.stuck <;>
    simp [lessSeg, hx, hy', hz] at h1 h2 ⊢ <;>
    exact natRatioLe_trans hy h1 h2

/-! ### Indexed access and `Swap`

`container/heap` works through the `sort.Interface` methods; on
`uploadSegmentHeap` these are slice indexing (`uch[i]`), `Swap` and `Less`.
`getl` is slice access with the out-of-range case mapped to a default (the
algorithms below only ever access in range).
-/

section HeapIndex

variable {α : Type} [Inhabited α]

def getl (l : List α) (i : Nat) : α := l.getD i default

/-- `uploadSegmentHeap.Swap` (line 52). -/
def swapL (l : List α) (i j : Nat) : List α := (l.set i (getl l j)).set j (getl l i)

@[simp] theorem length_swapL (l : List α) (i j : Nat) :
    (swapL l i j).length = l.length := by
  simp [swapL]

theorem getl_eq_getElem (l : List α) (i : Nat) (h : i < l.length) : getl l i = l[i] :=
  List.getD_eq_getElem l default h

theorem getl_mem (l : List α) (i : Nat) (h : i < l.length) : getl l i ∈ l := by
  rw [getl_eq_getElem l i h]
  exact List.getElem_mem h

theorem getD_set_self (l : List α) (i : Nat) (a d : α) (h : i < l.length) :
    (l.set i a).getD i d = a := by
  rw [List.getD_eq_getElem _ _ (by simpa using h)]
  rw [List.getElem_set_self]

theorem getD_set_ne (l : List α) (i k : Nat) (a d : α) (hne : i ≠ k) :
    (l.set i a).getD k d = l.getD k d := by
  by_cases hk : k < l.length
  · rw [List.getD_eq_getElem _ _ (by simpa using hk), List.getD_eq_getElem _ _ hk]
    exact List.getElem_set_ne hne _
  · rw [List.getD_eq_default _ _ (by simpa using Nat.le_of_not_lt hk),
      List.getD_eq_default _ _ (Nat.le_of_not_lt hk)]

theorem getl_swapL_right (l : List α) (i j : Nat) (hj : j < l.length) :
    getl (swapL l i j) j = getl l i := by
  unfold swapL getl
  rw [getD_set_self _ _ _ _ (by simpa using hj)]

theorem getl_swapL_left (l : List α) (i j : Nat) (hi : i < l.length) (hj : j < l.length) :
    getl (swapL l i j) i = getl l j := by
  by_cases hij : i = j
  · subst hij
    exact getl_swapL_right l i i hj
  · unfold swapL getl
    rw [getD_set_ne _ _ _ _ _ (Ne.symm hij), getD_set_self _ _ _ _ hi]

theorem getl_swapL_other (l : List α) (i j k : Nat) (hki : k ≠ i) (hkj : k ≠ j) :
    getl (swapL l i j) k = getl l k := by
  unfold swapL getl
  rw [getD_set_ne _ _ _ _ _ (Ne.symm hkj), getD_set_ne _ _ _ _ _ (Ne.symm hki)]

/-- Setting index `k` and consing the old `l[k]` in front permutes the list. -/
theorem set_cons_perm (t : List α) (k : Nat) (x : α) (hk : k < t.length) :
    (t.getD k default :: t.set k x).Perm (x :: t) := by
  induction t generalizing k with
  | nil => simp at hk
  | cons a s ih =>
    cases k with
    | zero =>
      simpa using List.Perm.swap x a s
    | succ k =>
      have hk' : k < s.length := by simpa using hk
      have h0 : ((a :: s).getD (k + 1) default :: (a :: s).set (k + 1) x)
          = s.getD k default :: a :: s.set k x := by simp
      rw [h0]
      exact ((List.Perm.swap a (s.getD k default) (s.set k x)).trans
        (List.Perm.cons a (ih k hk'))).trans (List.Perm.swap x a s)

theorem swapL_perm_lt (l : List α) (i j : Nat) (hij : i < j) (hj : j < l.length) :
    (swapL l i j).Perm l := by
  induction l generalizing i j with
  | nil => simp at hj
  | cons a t ih =>
    cases i with
    | zero =>
      cases j with
      | zero => omega
      | succ k =>
        have hk : k < t.length := by simpa using hj
        have h1 : swapL (a :: t) 0 (k + 1) = t.getD k default :: t.set k a := by
          simp [swapL, getl]
        rw [h1]
        exact set_cons_perm t k a hk
    | succ i' =>
      cases j with
      | zero => omega
      | succ j' =>
        have hj' : j' < t.length := by simpa using hj
        have h1 : swapL (a :: t) (i' + 1) (j' + 1) = a :: swapL t i' j' := by
          simp [swapL, getl]
        rw [h1]
        exact List.Perm.cons a (ih i' j' (by omega) hj')

theorem swapL_self (l : List α) (i : Nat) (hi : i < l.length) : swapL l i i = l := by
  apply List.ext_getElem (by simp)
  intro k hk1 hk2
  by_cases hki : k = i
  · subst hki
    simp only [swapL]
    rw [List.getElem_set_self]
    exact (getl_eq_getElem l k hk2).symm ▸ rfl
  · simp only [swapL]
    rw [List.getElem_set_ne (Ne.symm hki), List.getElem_set_ne (Ne.symm hki)]

theorem swapL_comm (l : List α) (i j : Nat) (hi : i < l.length) (hj : j < l.length) :
    swapL l i j = swapL l j i := by
  by_cases hij : i = j
  · subst hij; rfl
  · unfold swapL
    apply List.ext_getElem (by simp)
    intro k hk1 hk2
    by_cases hki : k = i
    · subst hki
      rw [List.getElem_set_ne (by omega), List.getElem_set_self,
        List.getElem_set_self]
    · by_cases hkj : k = j
      · subst hkj
        rw [List.getElem_set_self, List.getElem_set_ne (by omega),
          List.getElem_set_self]
      · rw [List.getElem_set_ne (Ne.symm hkj), List.getElem_set_ne (Ne.symm hki),
          List.getElem_set_ne (Ne.symm hki), List.getElem_set_ne (Ne.symm hkj)]

theorem swapL_perm (l : List α) (i j : Nat) (hi : i < l.length) (hj : j < l.length) :
    (swapL l i j).Perm l := by
  rcases Nat.lt_trichotomy i j with hij | hij | hij
  · exact swapL_perm_lt l i j hij hj
  · subst hij
    rw [swapL_self l i hi]
  · rw [swapL_comm l i j hi hj]
    exact swapL_perm_lt l j i hij hi

end HeapIndex

/-! ### The `container/heap` algorithms

Direct translations of `heap.Push`/`heap.Pop` and the private `up`/`down` of
Go's `container/heap`, over the slice model above.  The recursions are
written with an explicit fuel argument so that they compute structurally; the
fuel (`j + 1` for `up`, `n - i` for `down`) strictly bounds the number of
loop iterations, so it never runs out. -/

section HeapAlg

variable {α : Type} [Inhabited α]

/-- `up(h, j)`:  `for { i := (j-1)/2; if i == j || !h.Less(j, i) { break };
h.Swap(i, j); j = i }`. -/
def goUpF (lt : α → α → Bool) : Nat → List α → Nat → List α
  | 0, l, _ => l
  | fuel + 1, l, j =>
    if j = 0 then l
    else
      let i := (j - 1) / 2
      if lt (getl l j) (getl l i) then goUpF lt fuel (swapL l i j) i else l

def goUp (lt : α → α → Bool) (l : List α) (j : Nat) : List α := goUpF lt (j + 1) l j

/-- `heap.Push`: append, then sift up from the last index. -/
def heapPush (lt : α → α → Bool) (l : List α) (x : α) : List α :=
  goUp lt (l ++ [x]) l.length

/-- `down(h, i, n)`: pick the smaller child `j`, stop if `!h.Less(j, i)`,
else swap and continue from `j`. -/
def goDownF (lt : α → α → Bool) : Nat → List α → Nat → Nat → List α
  | 0, l, _, _ => l
  | fuel + 1, l, i, n =>
    let j1 := 2 * i + 1
    if j1 < n then
      let j := if j1 + 1 < n ∧ lt (getl l (j1 + 1)) (getl l j1) then j1 + 1 else j1
      if lt (getl l j) (getl l i) then goDownF lt fuel (swapL l i j) j n else l
    else l

def goDown (lt : α → α → Bool) (l : List α) (i n : Nat) : List α :=
  goDownF lt (n - i) l i n

/-- `heap.Pop`: swap root and last, sift down within the shrunk boundary,
then remove and return the last element. -/
def heapPop (lt : α → α → Bool) (l : List α) : List α × α :=
  let n := l.length - 1
  let l1 := swapL l 0 n
  let l2 := goDown lt l1 0 n
  (l2.take n, getl l2 n)

theorem length_goUpF (lt : α → α → Bool) :
    ∀ (fuel : Nat) (l : List α) (j : Nat), (goUpF lt fuel l j).length = l.length := by
  intro fuel
  induction fuel with
  | zero => intro l j; rfl
  | succ fuel ih =>
    intro l j
    by_cases hj : j = 0
    · simp [goUpF, hj]
    · by_cases hlt : lt (getl l j) (getl l ((j - 1) / 2)) = true
      · simp only [goUpF, hj, if_false, hlt, if_true]
        rw [ih, length_swapL]
      · simp [goUpF, hj, hlt]

theorem goUpF_perm (lt : α → α → Bool) :
    ∀ (fuel : Nat) (l : List α) (j : Nat), j < l.length → (goUpF lt fuel l j).Perm l := by
  intro fuel
  induction fuel with
  | zero => intro l j _; exact List.Perm.refl l
  | succ fuel ih =>
    intro l j hj
    by_cases hj0 : j = 0
    · simp [goUpF, hj0]
    · by_cases hlt : lt (getl l j) (getl l ((j - 1) / 2)) = true
      · simp only [goUpF, hj0, if_false, hlt, if_true]
        have hi : (j - 1) / 2 < l.length := by omega
        exact ((ih (swapL l ((j - 1) / 2) j) ((j - 1) / 2)
          (by rw [length_swapL]; omega)).trans (swapL_perm l _ j hi hj))
      · simp [goUpF, hj0, hlt]

theorem length_goDownF (lt : α → α → Bool) :
    ∀ (fuel : Nat) (l : List α) (i n : Nat), (goDownF lt fuel l i n).length = l.length := by
  intro fuel
  induction fuel with
  | zero => intro l i n; rfl
  | succ fuel ih =>
    intro l i n
    simp only [goDownF]
    by_cases h1 : 2 * i + 1 < n
    · simp only [h1, if_true]
      by_cases hlt : lt (getl l (if 2 * i + 1 + 1 < n ∧
          lt (getl l (2 * i + 1 + 1)) (getl l (2 * i + 1)) = true then 2 * i + 1 + 1
          else 2 * i + 1)) (getl l i) = true
      · rw [if_pos hlt, ih, length_swapL]
      · rw [if_neg hlt]
    · simp [h1]

theorem goDownF_perm (lt : α → α → Bool) :
    ∀ (fuel : Nat) (l : List α) (i n : Nat), n ≤ l.length →
      (goDownF lt fuel l i n).Perm l := by
  intro fuel
  induction fuel with
  | zero => intro l i n _; exact List.Perm.refl l
  | succ fuel ih =>
    intro l i n hn
    simp only [goDownF]
    by_cases h1 : 2 * i + 1 < n
    · simp only [h1, if_true]
      set j := if 2 * i + 1 + 1 < n ∧
          lt (getl l (2 * i + 1 + 1)) (getl l (2 * i + 1)) = true then 2 * i + 1 + 1
          else 2 * i + 1 with hjdef
      have hjn : j < n := by
        rw [hjdef]; split <;> omega
      by_cases hlt : lt (getl l j) (getl l i) = true
      · rw [if_pos hlt]
        exact (ih (swapL l i j) j n (by rw [length_swapL]; exact hn)).trans
          (swapL_perm l i j (by omega) (by omega))
      · rw [if_neg hlt]
    · simp [h1]

/-- `down` never touches indices at or above the boundary `n`. -/
theorem goDownF_getl_ge (lt : α → α → Bool) :
    ∀ (fuel : Nat) (l : List α) (i n k : Nat), n ≤ k →
      getl (goDownF lt fuel l i n) k = getl l k := by
  intro fuel
  induction fuel with
  | zero => intro l i n k _; rfl
  | succ fuel ih =>
    intro l i n k hk
    simp only [goDownF]
    by_cases h1 : 2 * i + 1 < n
    · simp only [h1, if_true]
      set j := if 2 * i + 1 + 1 < n ∧
          lt (getl l (2 * i + 1 + 1)) (getl l (2 * i + 1)) = true then 2 * i + 1 + 1
          else 2 * i + 1 with hjdef
      have hjn : j < n := by
        rw [hjdef]; split <;> omega
      by_cases hlt : lt (getl l j) (getl l i) = true
      · rw [if_pos hlt, ih _ _ _ _ hk, getl_swapL_other _ _ _ _ (by omega) (by omega)]
      · rw [if_neg hlt]
    · simp [h1]

theorem getl_append_lt (l : List α) (x : α) (i : Nat) (h : i < l.length) :
    getl (l ++ [x]) i = getl l i := by
  unfold getl
  rw [List.getD_eq_getElem _ _ (by simp; omega), List.getD_eq_getElem _ _ h]
  exact List.getElem_append_left h

theorem getl_append_len (l : List α) (x : α) : getl (l ++ [x]) l.length = x := by
  unfold getl
  rw [List.getD_eq_getElem _ _ (by simp)]
  simp

theorem getl_take (l : List α) (n k : Nat) (hk : k < n) (hn : n ≤ l.length) :
    getl (l.take n) k = getl l k := by
  unfold getl
  rw [List.getD_eq_getElem _ _ (by simp; omega), List.getD_eq_getElem _ _ (by omega)]
  exact List.getElem_take _

theorem take_append_getl (l : List α) (n : Nat) (h : l.length = n + 1) :
    l.take n ++ [getl l n] = l := by
  unfold getl
  rw [List.getD_eq_getElem _ _ (by omega)]
  conv_rhs => rw [← List.take_append_drop n l]
  congr 1
  rw [List.drop_eq_getElem_cons (by omega), List.drop_eq_nil_of_le (by omega)]

end HeapAlg

/-! ### Heap invariant and sift correctness for the upload heap order -/

/-- All segments have a positive `sectorsNeedNum` (no NaN ratios). -/
def allPos (l : List USeg) : Prop := ∀ s ∈ l, 0 < s.sectorsNeedNum

theorem allPos_of_perm {l l' : List USeg} (h : l'.Perm l) (hP : allPos l) : allPos l' :=
  fun s hs => hP s (h.mem_iff.mp hs)

theorem allPos_getl {l : List USeg} (hP : allPos l) {i : Nat} (hi : i < l.length) :
    0 < (getl l i).sectorsNeedNum :=
  hP _ (getl_mem l i hi)

/-- The binary-heap edge condition for indices below `n`. -/
def IsHeapTo (l : List USeg) (n : Nat) : Prop :=
  ∀ c, 0 < c → c < n → lessSeg (getl l c) (getl l ((c - 1) / 2)) = false

def IsHeap (l : List USeg) : Prop := IsHeapTo l l.length

/-- During sift-up at hole `j`:  every non-hole edge is ordered, and the
hole's children are already below the hole's parent. -/
def SiftUpInv (l : List USeg) (j : Nat) : Prop :=
  (∀ c, 0 < c → c < l.length → c ≠ j →
    lessSeg (getl l c) (getl l ((c - 1) / 2)) = false) ∧
  (0 < j → ∀ c, c < l.length → (c - 1) / 2 = j →
    lessSeg (getl l c) (getl l ((j - 1) / 2)) = false)

theorem siftUpInv_swap {l : List USeg} {j : Nat} (hj0 : 0 < j) (hjl : j < l.length)
    (hP : allPos l) (inv : SiftUpInv l j)
    (hlt : lessSeg (getl l j) (getl l ((j - 1) / 2)) = true) :
    SiftUpInv (swapL l ((j - 1) / 2) j) ((j - 1) / 2) := by
  set i := (j - 1) / 2 with hidef
  have hij : i < j := by omega
  have hil : i < l.length := by omega
  have hgj : getl (swapL l i j) j = getl l i := getl_swapL_right l i j hjl
  have hgi : getl (swapL l i j) i = getl l j := getl_swapL_left l i j hil hjl
  have hother : ∀ k, k ≠ i → k ≠ j → getl (swapL l i j) k = getl l k := fun k h1 h2 =>
    getl_swapL_other l i j k h1 h2
  constructor
  · intro c hc0 hcl hci
    rw [length_swapL] at hcl
    by_cases hcj : c = j
    · subst hcj
      have hpc : (c - 1) / 2 = i := hidef.symm
      rw [hpc, hgj, hgi]
      exact lessSeg_asymm hlt
    · have hgc : getl (swapL l i j) c = getl l c := hother c hci hcj
      by_cases hpj : (c - 1) / 2 = j
      · rw [hpj, hgj, hgc]
        exact inv.2 hj0 c hcl hpj
      · by_cases hpi : (c - 1) / 2 = i
        · rw [hpi, hgi, hgc]
          by_contra hcon
          have hcon' : lessSeg (getl l c) (getl l j) = true := by
            revert hcon
            cases lessSeg (getl l c) (getl l j) <;> simp
          have htr : lessSeg (getl l c) (getl l i) = true :=
            lessSeg_trans hcon' hlt
          have := inv.1 c hc0 hcl hcj
          rw [hpi] at this
          rw [this] at htr
          exact Bool.false_ne_true htr
        · rw [hgc, hother _ hpi hpj]
          exact inv.1 c hc0 hcl hcj
  · intro hi0 c hcl hpc
    rw [length_swapL] at hcl
    have hc2 : c = 2 * i + 1 ∨ c = 2 * i + 2 := by omega
    have hg : (i - 1) / 2 ≠ i := by omega
    have hgj' : (i - 1) / 2 ≠ j := by omega
    have hgg : getl (swapL l i j) ((i - 1) / 2) = getl l ((i - 1) / 2) :=
      hother _ hg hgj'
    by_cases hcj : c = j
    · subst hcj
      rw [hgg, hgj]
      exact inv.1 i hi0 hil (by omega)
    · have hci : c ≠ i := by omega
      rw [hgg, hother c hci hcj]
      have h1 : lessSeg (getl l c) (getl l i) = false := by
        have := inv.1 c (by omega) hcl hcj
        rw [hpc] at this
        exact this
      have h2 : lessSeg (getl l i) (getl l ((i - 1) / 2)) = false :=
        inv.1 i hi0 hil (by omega)
      exact lessSeg_notlt_trans (allPos_getl hP hil) h2 h1

theorem goUpF_isHeap :
    ∀ (fuel : Nat) (l : List USeg) (j : Nat), j < l.length → j + 1 ≤ fuel →
      allPos l → SiftUpInv l j → IsHeap (goUpF lessSeg fuel l j) := by
  intro fuel
  induction fuel with
  | zero => intro l j _ hf; omega
  | succ fuel ih =>
    intro l j hjl hf hP inv
    by_cases hj0 : j = 0
    · subst hj0
      simp only [goUpF, if_pos rfl]
      intro c hc0 hcl
      exact inv.1 c hc0 hcl (by omega)
    · by_cases hlt : lessSeg (getl l j) (getl l ((j - 1) / 2)) = true
      · simp only [goUpF, hj0, if_false, hlt, if_true]
        have hperm := swapL_perm l ((j - 1) / 2) j (by omega) hjl
        exact ih (swapL l ((j - 1) / 2) j) ((j - 1) / 2)
          (by rw [length_swapL]; omega) (by omega)
          (allPos_of_perm hperm hP)
          (siftUpInv_swap (by omega) hjl hP inv hlt)
      · simp only [goUpF, hj0, if_false]
        rw [if_neg hlt]
        intro c hc0 hcl
        by_cases hcj : c = j
        · subst hcj
          simpa using hlt
        · exact inv.1 c hc0 hcl hcj

/-- `heap.Push` preserves the heap invariant. -/
theorem heapPush_isHeap {l : List USeg} {x : USeg} (hheap : IsHeap l) (hP : allPos l)
    (hx : 0 < x.sectorsNeedNum) : IsHeap (heapPush lessSeg l x) := by
  unfold heapPush goUp
  apply goUpF_isHeap (l.length + 1) (l ++ [x]) l.length (by simp) (by omega)
  · intro s hs
    rcases List.mem_append.mp hs with hs | hs
    · exact hP s hs
    · rcases List.mem_singleton.mp hs with rfl
      exact hx
  constructor
  · intro c hc0 hcl hcj
    have hcl' : c < l.length := by
      simp only [List.length_append, List.length_singleton] at hcl
      omega
    have hpl : (c - 1) / 2 < l.length := by omega
    rw [getl_append_lt l x c hcl', getl_append_lt l x _ hpl]
    exact hheap c hc0 hcl'
  · intro hj0 c hcl hpc
    simp only [List.length_append, List.length_singleton] at hcl
    omega

theorem length_heapPush (lt : USeg → USeg → Bool) (l : List USeg) (x : USeg) :
    (heapPush lt l x).length = l.length + 1 := by
  unfold heapPush goUp
  rw [length_goUpF]
  simp

theorem heapPush_perm (lt : USeg → USeg → Bool) (l : List USeg) (x : USeg) :
    (heapPush lt l x).Perm (x :: l) := by
  unfold heapPush goUp
  exact (goUpF_perm lt _ (l ++ [x]) l.length (by simp)).trans
    (List.perm_append_singleton x l)

/-- During sift-down at hole `i` with boundary `n`: every edge below `n`
whose parent is not the hole is ordered, and the hole's children are already
below the hole's parent. -/
def SiftDownInv (l : List USeg) (i n : Nat) : Prop :=
  (∀ c, 0 < c → c < n → (c - 1) / 2 ≠ i →
    lessSeg (getl l c) (getl l ((c - 1) / 2)) = false) ∧
  (0 < i → ∀ c, c < n → (c - 1) / 2 = i →
    lessSeg (getl l c) (getl l ((i - 1) / 2)) = false)

theorem siftDownInv_swap {l : List USeg} {i n j : Nat} (hn : n ≤ l.length)
    (hP : allPos l) (inv : SiftDownInv l i n)
    (hj0 : 0 < j) (hjn : j < n) (hpj : (j - 1) / 2 = i)
    (hmin : ∀ c, 0 < c → c < n → (c - 1) / 2 = i → c ≠ j →
      lessSeg (getl l c) (getl l j) = false)
    (hlt : lessSeg (getl l j) (getl l i) = true) :
    SiftDownInv (swapL l i j) j n := by
  have hij : i < j := by omega
  have hil : i < l.length := by omega
  have hjl : j < l.length := by omega
  have hgj : getl (swapL l i j) j = getl l i := getl_swapL_right l i j hjl
  have hgi : getl (swapL l i j) i = getl l j := getl_swapL_left l i j hil hjl
  have hother : ∀ k, k ≠ i → k ≠ j → getl (swapL l i j) k = getl l k := fun k h1 h2 =>
    getl_swapL_other l i j k h1 h2
  constructor
  · intro c hc0 hcn hpc
    by_cases hci : c = i
    · subst hci
      have hi0 : 0 < c := hc0
      have hgg : getl (swapL l c j) ((c - 1) / 2) = getl l ((c - 1) / 2) :=
        hother _ (by omega) (by omega)
      rw [hgi, hgg]
      exact inv.2 hi0 j hjn hpj
    · by_cases hcj : c = j
      · subst hcj
        rw [hpj, hgj, hgi]
        exact lessSeg_asymm hlt
      · have hgc : getl (swapL l i j) c = getl l c := hother c hci hcj
        by_cases hpi : (c - 1) / 2 = i
        · rw [hpi, hgi, hgc]
          exact hmin c hc0 hcn hpi hcj
        · rw [hgc, hother _ hpi hpc]
          exact inv.1 c hc0 hcn hpi
  · intro _ c hcn hpc
    have hcj : c ≠ j := by omega
    have hci : c ≠ i := by omega
    rw [hpj, hgi, hother c hci hcj]
    have := inv.1 c (by omega) hcn (by omega)
    rw [hpc] at this
    exact this

theorem goDownF_isHeapTo :
    ∀ (fuel : Nat) (l : List USeg) (i n : Nat), n ≤ l.length → n - i ≤ fuel →
      allPos l → SiftDownInv l i n → IsHeapTo (goDownF lessSeg fuel l i n) n := by
  intro fuel
  induction fuel with
  | zero =>
    intro l i n hn hf hP inv
    have hni : n ≤ i := by omega
    intro c hc0 hcn
    exact inv.1 c hc0 hcn (by omega)
  | succ fuel ih =>
    intro l i n hn hf hP inv
    simp only [goDownF]
    by_cases h1 : 2 * i + 1 < n
    · simp only [h1, if_true]
      set j := if 2 * i + 1 + 1 < n ∧
          lessSeg (getl l (2 * i + 1 + 1)) (getl l (2 * i + 1)) = true then 2 * i + 1 + 1
          else 2 * i + 1 with hjdef
      have hjn : j < n := by
        rw [hjdef]; split <;> omega
      have hj0 : 0 < j := by
        rw [hjdef]; split <;> omega
      have hji : i < j := by
        rw [hjdef]; split <;> omega
      have hpj : (j - 1) / 2 = i := by
        rw [hjdef]; split <;> omega
      have hmin : ∀ c, 0 < c → c < n → (c - 1) / 2 = i → c ≠ j →
          lessSeg (getl l c) (getl l j) = false := by
        intro c hc0 hcn hpc hcj
        have hc2 : c = 2 * i + 1 ∨ c = 2 * i + 2 := by omega
        by_cases hsel : 2 * i + 1 + 1 < n ∧
            lessSeg (getl l (2 * i + 1 + 1)) (getl l (2 * i + 1)) = true
        · have hj2 : j = 2 * i + 1 + 1 := by rw [hjdef, if_pos hsel]
          have hc1 : c = 2 * i + 1 := by omega
          rw [hc1, hj2]
          exact lessSeg_asymm hsel.2
        · have hj1 : j = 2 * i + 1 := by rw [hjdef, if_neg hsel]
          have hc1 : c = 2 * i + 2 := by omega
          have hcn' : 2 * i + 1 + 1 < n := by omega
          have hnot : lessSeg (getl l (2 * i + 1 + 1)) (getl l (2 * i + 1)) = false := by
            rcases Bool.eq_false_or_eq_true
              (lessSeg (getl l (2 * i + 1 + 1)) (getl l (2 * i + 1))) with h | h
            · exact absurd ⟨hcn', h⟩ hsel
            · exact h
          rw [hc1, hj1]
          exact hnot
      by_cases hlt : lessSeg (getl l j) (getl l i) = true
      · rw [if_pos hlt]
        have hperm := swapL_perm l i j (by omega) (by omega)
        exact ih (swapL l i j) j n (by rw [length_swapL]; exact hn) (by omega)
          (allPos_of_perm hperm hP)
          (siftDownInv_swap hn hP inv hj0 hjn hpj hmin hlt)
      · rw [if_neg hlt]
        have hltf : lessSeg (getl l j) (getl l i) = false := by
          rcases Bool.eq_false_or_eq_true (lessSeg (getl l j) (getl l i)) with h | h
          · exact absurd h hlt
          · exact h
        intro c hc0 hcn
        by_cases hpi : (c - 1) / 2 = i
        · by_cases hcj : c = j
          · subst hcj
            rw [hpi]
            exact hltf
          · -- sibling of the selected child: go through the selected child
            have hcm := hmin c hc0 hcn hpi hcj
            rw [hpi]
            exact lessSeg_notlt_trans (allPos_getl hP (by omega)) hltf hcm
        · exact inv.1 c hc0 hcn hpi
    · simp only [h1, if_false]
      intro c hc0 hcn
      exact inv.1 c hc0 hcn (by omega)

/-- Under the heap invariant (with positive denominators) the root is
minimal: nothing in the heap is strictly `Less` than `l[0]`. -/
theorem isHeapTo_root_min {l : List USeg} {n : Nat} (hn : n ≤ l.length)
    (h : IsHeapTo l n) (hP : allPos l) :
    ∀ k, k < n → lessSeg (getl l k) (getl l 0) = false := by
  intro k
  induction k using Nat.strong_induction_on with
  | _ k ihk =>
    intro hk
    rcases Nat.eq_zero_or_pos k with rfl | hk0
    · exact lessSeg_irrefl _
    · have hedge := h k hk0 hk
      have hpar := ihk ((k - 1) / 2) (by omega) (by omega)
      exact lessSeg_notlt_trans (allPos_getl hP (by omega)) hpar hedge

/-- Everything `heap.Pop` needs about the result: the popped element is the
old root, it is minimal, the rest is again a heap, and rest + popped is a
permutation of the input. -/
theorem heapPop_spec {l : List USeg} (hne : l ≠ []) (hheap : IsHeap l) (hP : allPos l) :
    (heapPop lessSeg l).2 = getl l 0 ∧
    ((heapPop lessSeg l).1 ++ [(heapPop lessSeg l).2]).Perm l ∧
    IsHeap (heapPop lessSeg l).1 ∧
    (heapPop lessSeg l).1.length = l.length - 1 := by
  have hlen : 0 < l.length := List.length_pos.mpr hne
  set n := l.length - 1 with hndef
  have hnl : n < l.length := by omega
  set l1 := swapL l 0 n with hl1def
  have hl1len : l1.length = l.length := by rw [hl1def, length_swapL]
  set l2 := goDownF lessSeg (n - 0) l1 0 n with hl2def
  have hl2len : l2.length = l.length := by rw [hl2def, length_goDownF, hl1len]
  have hpop : heapPop lessSeg l = (l2.take n, getl l2 n) := rfl
  have hx : getl l2 n = getl l 0 := by
    rw [hl2def, goDownF_getl_ge lessSeg _ _ _ _ _ (le_refl n), hl1def]
    exact getl_swapL_right l 0 n hnl
  have hperm2 : l2.Perm l := by
    rw [hl2def]
    exact (goDownF_perm lessSeg _ l1 0 n (by omega)).trans
      (swapL_perm l 0 n hlen hnl)
  have hrestlen : (l2.take n).length = n := by
    rw [List.length_take]
    omega
  have hrest : l2.take n ++ [getl l2 n] = l2 := take_append_getl l2 n (by omega)
  have hheapTo : IsHeapTo l2 n := by
    rw [hl2def]
    apply goDownF_isHeapTo (n - 0) l1 0 n (by omega) (by omega)
      (allPos_of_perm (swapL_perm l 0 n hlen hnl) hP)
    constructor
    · intro c hc0 hcn hpc
      have hc : c ≠ n := by omega
      have hcz : c ≠ 0 := by omega
      have hp0 : (c - 1) / 2 ≠ 0 := hpc
      have hpn : (c - 1) / 2 ≠ n := by omega
      rw [hl1def, getl_swapL_other l 0 n c (Ne.symm (by omega)) hc,
        getl_swapL_other l 0 n _ (by omega) hpn]
      exact hheap c hc0 (by omega)
    · intro h0
      omega
  refine ⟨?_, ?_, ?_, ?_⟩
  · rw [hpop]
    exact hx
  · rw [hpop]
    simpa [hrest] using hperm2
  · rw [hpop]
    intro c hc0 hcl
    rw [hrestlen] at hcl
    rw [getl_take l2 n c hcl (by omega), getl_take l2 n _ (by omega) (by omega)]
    exact hheapTo c hc0 hcl
  · rw [hpop]
    exact hrestlen

/-- The popped element is minimal among everything in the heap. -/
theorem heapPop_min {l : List USeg} (hne : l ≠ []) (hheap : IsHeap l) (hP : allPos l) :
    ∀ y ∈ l, lessSeg y (heapPop lessSeg l).2 = false := by
  intro y hy
  have hx := (heapPop_spec hne hheap hP).1
  rcases List.mem_iff_getElem.mp hy with ⟨k, hk, hky⟩
  have := isHeapTo_root_min (le_refl l.length) hheap hP k hk
  rw [getl_eq_getElem l k hk, hky] at this
  rw [hx]
  exact this

/-- `heapPop` is a permutation regardless of any heap order. -/
theorem heapPop_perm {l : List USeg} (hne : l ≠ []) :
    ((heapPop lessSeg l).1 ++ [(heapPop lessSeg l).2]).Perm l ∧
    (heapPop lessSeg l).1.length = l.length - 1 := by
  have hlen : 0 < l.length := List.length_pos.mpr hne
  set n := l.length - 1 with hndef
  have hnl : n < l.length := by omega
  set l1 := swapL l 0 n with hl1def
  have hl1len : l1.length = l.length := by rw [hl1def, length_swapL]
  set l2 := goDownF lessSeg (n - 0) l1 0 n with hl2def
  have hl2len : l2.length = l.length := by rw [hl2def, length_goDownF, hl1len]
  have hpop : heapPop lessSeg l = (l2.take n, getl l2 n) := rfl
  have hperm2 : l2.Perm l := by
    rw [hl2def]
    exact (goDownF_perm lessSeg _ l1 0 n (by omega)).trans (swapL_perm l 0 n hlen hnl)
  have hrest : l2.take n ++ [getl l2 n] = l2 := take_append_getl l2 n (by omega)
  constructor
  · rw [hpop]
    simpa [hrest] using hperm2
  · rw [hpop, List.length_take]
    omega

/-- Draining the heap by repeated `heap.Pop`, with fuel (the heap length). -/
def popAllF (lt : USeg → USeg → Bool) : Nat → List USeg → List USeg
  | 0, _ => []
  | fuel + 1, l =>
    if l.isEmpty then []
    else
      let p := heapPop lt l
      p.2 :: popAllF lt fuel p.1

theorem popAllF_perm :
    ∀ (fuel : Nat) (l : List USeg), l.length ≤ fuel →
      (popAllF lessSeg fuel l).Perm l := by
  intro fuel
  induction fuel with
  | zero =>
    intro l hl
    have : l = [] := List.eq_nil_of_length_eq_zero (by omega)
    subst this
    exact List.Perm.refl _
  | succ fuel ih =>
    intro l hl
    by_cases hne : l = []
    · subst hne
      simp [popAllF]
    · have hiseq : l.isEmpty = false := by
        cases l with
        | nil => exact absurd rfl hne
        | cons a t => rfl
      simp only [popAllF, hiseq, Bool.false_eq_true, if_false]
      have hpp := heapPop_perm hne
      have ihp := ih (heapPop lessSeg l).1 (by omega)
      exact ((List.Perm.cons (heapPop lessSeg l).2 ihp).trans
        (List.perm_append_singleton _ _).symm).trans hpp.1

theorem popAllF_sorted :
    ∀ (fuel : Nat) (l : List USeg), l.length ≤ fuel → IsHeap l → allPos l →
      List.Pairwise (fun a b => lessSeg b a = false) (popAllF lessSeg fuel l) := by
  intro fuel
  induction fuel with
  | zero => intro l _ _ _; exact List.Pairwise.nil
  | succ fuel ih =>
    intro l hl hheap hP
    by_cases hne : l = []
    · subst hne
      simp [popAllF]
    · have hiseq : l.isEmpty = false := by
        cases l with
        | nil => exact absurd rfl hne
        | cons a t => rfl
      simp only [popAllF, hiseq, Bool.false_eq_true, if_false]
      have hspec := heapPop_spec hne hheap hP
      have hrestP : allPos (heapPop lessSeg l).1 := by
        intro s hs
        exact hP s (hspec.2.1.mem_iff.mp (List.mem_append.mpr (Or.inl hs)))
      constructor
      · intro b hb
        have hbrest : b ∈ (heapPop lessSeg l).1 :=
          (popAllF_perm fuel (heapPop lessSeg l).1 (by omega)).mem_iff.mp hb
        have hbl : b ∈ l := hspec.2.1.mem_iff.mp (List.mem_append.mpr (Or.inl hbrest))
        exact heapPop_min hne hheap hP b hbl
      · exact ih (heapPop lessSeg l).1 (by omega) hspec.2.2.1 hrestP

/-!
### The `uploadHeap` state (heap + `heapSegments` + `repairingSegments`)

The two Go maps are modelled as duplicate-free lists of segment ids.  `push`
and `pop` are the code's operations.  The transfer of a popped segment into
`repairingSegments` and its later removal happen in parts of the repository
outside the given sources, so those two transitions are modelled from the
spec (see their doc comments).
-/

structure UploadHeapState where
  heap : List USeg
  heapSegments : List Nat
  repairingSegments : List Nat
deriving DecidableEq, Repr

/-- Embedding of `uploadHeap.push` (lines 92–104): reject an id already in
either set, otherwise record the id and `heap.Push`. -/
def uhPush (st : UploadHeapState) (s : USeg) : UploadHeapState × Bool :=
  if s.id ∈ st.heapSegments ∨ s.id ∈ st.repairingSegments then (st, false)
  else
    ({ heap := heapPush lessSeg st.heap s
       heapSegments := st.heapSegments.insert s.id
       repairingSegments := st.repairingSegments }, true)

/-- Embedding of `uploadHeap.pop` (lines 106–114): when the heap is
non-empty, `heap.Pop` and delete the popped id from `heapSegments`. -/
def uhPop (st : UploadHeapState) : UploadHeapState × Option USeg :=
  if 0 < st.heap.length then
    let p := heapPop lessSeg st.heap
    ({ heap := p.1
       heapSegments := st.heapSegments.erase p.2.id
       repairingSegments := st.repairingSegments }, some p.2)
  else (st, none)

/-- Modelled from the spec: §4.4 step 7, "dispatch asynchronously to workers
and move segment from `heapSegments` to `repairingSegments`".  The
repairing-set insertion is not in the given sources (the sources only read
`repairingSegments` in `push`); a dispatch is a pop whose popped segment is
recorded as repairing. -/
def uhDispatch (st : UploadHeapState) : UploadHeapState × Option USeg :=
  match uhPop st with
  | (st', none) => (st', none)
  | (st', some s) =>
    ({ st' with repairingSegments := st'.repairingSegments.insert s.id }, some s)

/-- Modelled from the spec: a segment leaves `repairingSegments` when its
repair completes or fails ("memory is released when the segment completes or
fails"); not in the given sources. -/
def uhFinishRepair (st : UploadHeapState) (segId : Nat) : UploadHeapState :=
  { st with repairingSegments := st.repairingSegments.erase segId }

def uhInit : UploadHeapState := ⟨[], [], []⟩

inductive UHStep : UploadHeapState → UploadHeapState → Prop
  | push (st : UploadHeapState) (s : USeg) : UHStep st (uhPush st s).1
  | pop (st : UploadHeapState) : UHStep st (uhPop st).1
  | dispatch (st : UploadHeapState) : UHStep st (uhDispatch st).1
  | finishRepair (st : UploadHeapState) (segId : Nat) : UHStep st (uhFinishRepair st segId)

inductive UHReachable : UploadHeapState → Prop
  | init : UHReachable uhInit
  | step {st st' : UploadHeapState} : UHReachable st → UHStep st st' → UHReachable st'

/-- The bookkeeping invariant of the upload heap: heap ids are duplicate
free, `heapSegments` is exactly the set of ids in the heap, and no id is in
both `heapSegments` and `repairingSegments`. -/
def UHWf (st : UploadHeapState) : Prop :=
  (st.heap.map USeg.id).Nodup ∧
  st.heapSegments.Nodup ∧
  (∀ i, i ∈ st.heapSegments ↔ i ∈ st.heap.map USeg.id) ∧
  (∀ i, ¬ (i ∈ st.heapSegments ∧ i ∈ st.repairingSegments))

theorem uhPush_wf {st : UploadHeapState} (h : UHWf st) (s : USeg) :
    UHWf (uhPush st s).1 := by
  by_cases hmem : s.id ∈ st.heapSegments ∨ s.id ∈ st.repairingSegments
  · simpa [uhPush, hmem] using h
  · push_neg at hmem
    have hid : s.id ∉ st.heap.map USeg.id := fun hin => hmem.1 ((h.2.2.1 s.id).mpr hin)
    have hperm : ((heapPush lessSeg st.heap s).map USeg.id).Perm
        (s.id :: st.heap.map USeg.id) := by
      simpa using (heapPush_perm lessSeg st.heap s).map USeg.id
    have hins : st.heapSegments.insert s.id = s.id :: st.heapSegments :=
      List.insert_of_not_mem hmem.1
    have hres : uhPush st s =
        ({ heap := heapPush lessSeg st.heap s
           heapSegments := st.heapSegments.insert s.id
           repairingSegments := st.repairingSegments }, true) := by
      simp [uhPush, hmem.1, hmem.2]
    rw [hres]
    refine ⟨?_, ?_, ?_, ?_⟩
    · exact hperm.nodup_iff.mpr (List.nodup_cons.mpr ⟨hid, h.1⟩)
    · rw [hins]
      exact List.nodup_cons.mpr ⟨hmem.1, h.2.1⟩
    · intro i
      rw [hins, hperm.mem_iff]
      simp only [List.mem_cons]
      rw [h.2.2.1 i]
    · intro i hcon
      rw [hins] at hcon
      rcases List.mem_cons.mp hcon.1 with rfl | hi
      · exact hmem.2 hcon.2
      · exact h.2.2.2 i ⟨hi, hcon.2⟩

theorem uhPop_wf {st : UploadHeapState} (h : UHWf st) : UHWf (uhPop st).1 := by
  by_cases hne : 0 < st.heap.length
  · have hne' : st.heap ≠ [] := by
      intro hnil
      rw [hnil] at hne
      simp at hne
    have hpp := heapPop_perm (l := st.heap) hne'
    set p := heapPop lessSeg st.heap with hpdef
    have hres : (uhPop st).1 =
        { heap := p.1
          heapSegments := st.heapSegments.erase p.2.id
          repairingSegments := st.repairingSegments } := by
      simp [uhPop, hne]
    have hidsperm : (p.1.map USeg.id ++ [p.2.id]).Perm (st.heap.map USeg.id) := by
      simpa using hpp.1.map USeg.id
    have hnod : (p.1.map USeg.id ++ [p.2.id]).Nodup := hidsperm.nodup_iff.mpr h.1
    have hnodrest : (p.1.map USeg.id).Nodup := (List.nodup_append.mp hnod).1
    have hxnotin : p.2.id ∉ p.1.map USeg.id := by
      intro hin
      have := (List.nodup_append.mp hnod).2.2
      exact this hin (List.mem_singleton_self _)
    have hmemsplit : ∀ i, i ∈ st.heap.map USeg.id ↔
        (i ∈ p.1.map USeg.id ∨ i = p.2.id) := by
      intro i
      rw [← hidsperm.mem_iff]
      simp [List.mem_append]
    rw [hres]
    refine ⟨hnodrest, List.Nodup.erase _ h.2.1, ?_, ?_⟩
    · intro i
      by_cases hix : i = p.2.id
      · subst hix
        constructor
        · intro hin
          exact absurd hin (h.2.1.not_mem_erase)
        · intro hin
          exact absurd hin hxnotin
      · rw [List.mem_erase_of_ne hix, h.2.2.1 i, hmemsplit i]
        constructor
        · rintro (hi | rfl)
          · exact hi
          · exact absurd rfl hix
        · exact Or.inl
    · intro i hcon
      exact h.2.2.2 i ⟨List.mem_of_mem_erase hcon.1, hcon.2⟩
  · simpa [uhPop, hne] using h

theorem uhDispatch_wf {st : UploadHeapState} (h : UHWf st) : UHWf (uhDispatch st).1 := by
  by_cases hne : 0 < st.heap.length
  · have hne' : st.heap ≠ [] := by
      intro hnil
      rw [hnil] at hne
      simp at hne
    set p := heapPop lessSeg st.heap with hpdef
    have hpopres : uhPop st =
        ({ heap := p.1
           heapSegments := st.heapSegments.erase p.2.id
           repairingSegments := st.repairingSegments }, some p.2) := by
      simp [uhPop, hne]
    have hwf' := uhPop_wf h
    rw [hpopres] at hwf'
    have hres : (uhDispatch st).1 =
        { heap := p.1
          heapSegments := st.heapSegments.erase p.2.id
          repairingSegments := st.repairingSegments.insert p.2.id } := by
      simp [uhDispatch, hpopres]
    rw [hres]
    refine ⟨hwf'.1, hwf'.2.1, hwf'.2.2.1, ?_⟩
    · intro i hcon
      have hi1 : i ∈ st.heapSegments.erase p.2.id := hcon.1
      rcases List.mem_insert_iff.mp hcon.2 with rfl | hrep
      · exact h.2.1.not_mem_erase hi1
      · exact h.2.2.2 i ⟨List.mem_of_mem_erase hi1, hrep⟩
  · have hpopres : uhPop st = (st, none) := by
      simp [uhPop, hne]
    have hres : (uhDispatch st).1 = st := by
      simp [uhDispatch, hpopres]
    rw [hres]
    exact h

theorem uhFinishRepair_wf {st : UploadHeapState} (h : UHWf st) (segId : Nat) :
    UHWf (uhFinishRepair st segId) := by
  refine ⟨h.1, h.2.1, h.2.2.1, ?_⟩
  intro i hcon
  exact h.2.2.2 i ⟨hcon.1, List.mem_of_mem_erase hcon.2⟩

theorem uhReachable_wf {st : UploadHeapState} (h : UHReachable st) : UHWf st := by
  induction h with
  | init =>
    refine ⟨List.nodup_nil, List.nodup_nil, ?_, ?_⟩
    · intro i; simp [uhInit]
    · intro i hcon; simp [uhInit] at hcon
  | step _ hstep ih =>
    cases hstep with
    | push s => exact uhPush_wf ih s
    | pop => exact uhPop_wf ih
    | dispatch => exact uhDispatch_wf ih
    | finishRepair segId => exact uhFinishRepair_wf ih segId

/-- Push a list of segments through `uploadHeap.push`, keeping the state. -/
def uhPushList (st : UploadHeapState) (xs : List USeg) : UploadHeapState :=
  xs.foldl (fun st s => (uhPush st s).1) st

/-- Successive `uploadHeap.pop` calls, collecting the popped segments. -/
def uhPopSeq : Nat → UploadHeapState → List USeg
  | 0, _ => []
  | fuel + 1, st =>
    match uhPop st with
    | (_, none) => []
    | (st', some s) => s :: uhPopSeq fuel st'

theorem uhPopSeq_eq_popAllF :
    ∀ (fuel : Nat) (st : UploadHeapState),
      uhPopSeq fuel st = popAllF lessSeg fuel st.heap := by
  intro fuel
  induction fuel with
  | zero => intro st; rfl
  | succ fuel ih =>
    intro st
    by_cases hne : 0 < st.heap.length
    · have hiseq : st.heap.isEmpty = false := by
        cases hh : st.heap with
        | nil => rw [hh] at hne; simp at hne
        | cons a t => rfl
      have hpop : uhPop st =
          ({ heap := (heapPop lessSeg st.heap).1
             heapSegments := st.heapSegments.erase (heapPop lessSeg st.heap).2.id
             repairingSegments := st.repairingSegments },
            some (heapPop lessSeg st.heap).2) := by
        simp [uhPop, hne]
      simp only [uhPopSeq, hpop, popAllF, hiseq, Bool.false_eq_true, if_false]
      exact congrArg _ (ih _)
    · have hnil : st.heap = [] := by
        cases hh : st.heap with
        | nil => rfl
        | cons a t => rw [hh] at hne; simp at hne
      have hpop : uhPop st = (st, none) := by
        simp [uhPop, hne]
      simp only [uhPopSeq, hpop, popAllF, hnil]
      simp

theorem uhPushList_heap {xs : List USeg} :
    ∀ (st : UploadHeapState), IsHeap st.heap → allPos st.heap →
      (∀ s ∈ xs, 0 < s.sectorsNeedNum) →
      IsHeap (uhPushList st xs).heap ∧ allPos (uhPushList st xs).heap := by
  induction xs with
  | nil => intro st hh hp _; exact ⟨hh, hp⟩
  | cons x xs ih =>
    intro st hh hp hpos
    have hx : 0 < x.sectorsNeedNum := hpos x (List.mem_cons_self x xs)
    have hxs : ∀ s ∈ xs, 0 < s.sectorsNeedNum := fun s hs =>
      hpos s (List.mem_cons_of_mem x hs)
    have hstep : IsHeap (uhPush st x).1.heap ∧ allPos (uhPush st x).1.heap := by
      by_cases hmem : x.id ∈ st.heapSegments ∨ x.id ∈ st.repairingSegments
      · simpa [uhPush, hmem] using ⟨hh, hp⟩
      · have : (uhPush st x).1.heap = heapPush lessSeg st.heap x := by
          simp [uhPush, hmem]
        rw [this]
        refine ⟨heapPush_isHeap hh hp hx, ?_⟩
        intro s hs
        have hs' : s ∈ x :: st.heap := (heapPush_perm lessSeg st.heap x).mem_iff.mp hs
        rcases List.mem_cons.mp hs' with rfl | hs2
        · exact hx
        · exact hp s hs2
    exact ih (uhPush st x).1 hstep.1 hstep.2 hxs

/-- The three segments of the C5 scenario (`A (unstuck, 3/10)`,
`B (stuck, 9/10)`, `C (unstuck, 1/10)`). -/
def segA : USeg := ⟨1, false, 3, 10⟩
def segB : USeg := ⟨2, true, 9, 10⟩
def segC : USeg := ⟨3, false, 1, 10⟩

/-- C5: (general) draining the upload heap after any sequence of pushes of
segments with positive `sectorsNeedNum` yields a sequence in which no
later-popped segment is strictly `Less` than an earlier-popped one — stuck
segments come out before unstuck ones and, within the same stuck class,
smaller completion ratio first; (concrete) pushing A (unstuck, 3/10),
B (stuck, 9/10), C (unstuck, 1/10) in any of the six orders, the pops return
B, then C, then A. -/
theorem uploadHeap_pop_order :
    (∀ (segs : List USeg), (∀ s ∈ segs, 0 < s.sectorsNeedNum) →
      List.Pairwise (fun a b => lessSeg b a = false)
        (uhPopSeq (uhPushList uhInit segs).heap.length (uhPushList uhInit segs))) ∧
    uhPopSeq 3 (uhPushList uhInit [segA, segB, segC]) = [segB, segC, segA] ∧
    uhPopSeq 3 (uhPushList uhInit [segA, segC, segB]) = [segB, segC, segA] ∧
    uhPopSeq 3 (uhPushList uhInit [segB, segA, segC]) = [segB, segC, segA] ∧
    uhPopSeq 3 (uhPushList uhInit [segB, segC, segA]) = [segB, segC, segA] ∧
    uhPopSeq 3 (uhPushList uhInit [segC, segA, segB]) = [segB, segC, segA] ∧
    uhPopSeq 3 (uhPushList uhInit [segC, segB, segA]) = [segB, segC, segA] := by
  refine ⟨?_, by decide, by decide, by decide, by decide, by decide, by decide⟩
  intro segs hpos
  have hinit : IsHeap uhInit.heap ∧ allPos uhInit.heap := by
    constructor
    · intro c hc0 hcl
      simp [uhInit] at hcl
    · intro s hs
      simp [uhInit] at hs
  have hfold := uhPushList_heap uhInit hinit.1 hinit.2 hpos
  rw [uhPopSeq_eq_popAllF]
  exact popAllF_sorted _ _ (le_refl _) hfold.1 hfold.2

/-- Witness for `uploadHeap_pop_order`: the general part applied to the
three concrete segments. -/
theorem uploadHeap_pop_order_witness :
    List.Pairwise (fun a b => lessSeg b a = false)
      (uhPopSeq (uhPushList uhInit [segA, segB, segC]).heap.length
        (uhPushList uhInit [segA, segB, segC])) :=
  uploadHeap_pop_order.1 [segA, segB, segC] (by decide)

/-- C6: in every reachable state of the upload heap, a segment id is in at
most one of `heapSegments` and `repairingSegments`; `push` of a segment
whose id is already in either set returns `false` and leaves the state
unchanged; and `push` of a fresh id records the id in `heapSegments`, pushes
onto the heap, and returns `true`. -/
theorem uploadHeap_membership :
    (∀ st : UploadHeapState, UHReachable st →
      ∀ i, ¬ (i ∈ st.heapSegments ∧ i ∈ st.repairingSegments)) ∧
    (∀ (st : UploadHeapState) (s : USeg),
      s.id ∈ st.heapSegments ∨ s.id ∈ st.repairingSegments → uhPush st s = (st, false)) ∧
    (∀ (st : UploadHeapState) (s : USeg),
      s.id ∉ st.heapSegments → s.id ∉ st.repairingSegments →
      uhPush st s =
        ({ heap := heapPush lessSeg st.heap s
           heapSegments := st.heapSegments.insert s.id
           repairingSegments := st.repairingSegments }, true)) := by
  refine ⟨?_, ?_, ?_⟩
  · intro st hreach i
    exact (uhReachable_wf hreach).2.2.2 i
  · intro st s hmem
    simp [uhPush, hmem]
  · intro st s h1 h2
    simp [uhPush, h1, h2]

/-- Witness for `uploadHeap_membership`: after pushing segment A into the
fresh heap (a reachable state), its id is not in both sets, a repeated push
is rejected, and the original push was the recording one. -/
theorem uploadHeap_membership_witness :
    (¬ ((1 : Nat) ∈ (uhPush uhInit segA).1.heapSegments ∧
        (1 : Nat) ∈ (uhPush uhInit segA).1.repairingSegments)) ∧
    uhPush (uhPush uhInit segA).1 segA = ((uhPush uhInit segA).1, false) ∧
    uhPush uhInit segA =
      ({ heap := heapPush lessSeg uhInit.heap segA
         heapSegments := uhInit.heapSegments.insert segA.id
         repairingSegments := uhInit.repairingSegments }, true) := by
  refine ⟨?_, ?_, ?_⟩
  · exact uploadHeap_membership.1 (uhPush uhInit segA).1
      (UHReachable.step UHReachable.init (UHStep.push uhInit segA)) 1
  · exact uploadHeap_membership.2.1 (uhPush uhInit segA).1 segA (by decide)
  · exact uploadHeap_membership.2.2 uhInit segA (by decide) (by decide)

/-!
## §7  `FilterIPViolationHosts`
(storage host manager, `src/unnamed/part_000`, lines 373–412)

The host-tree lookup is a parameter.  The subnet filter
(`storagehosttree.NewFilter` / `Filtered` / `Add`) is not in the given
sources; modelled from the spec: *"greedily reject any host sharing a /24 (or
configured) subnet with one seen earlier"* — the filter keeps a set of
already-seen subnets, where `subnet : Nat → Nat` maps an IP to its subnet
(e.g. `ip / 256` for /24 over an integer-coded IPv4 address).

`sort.Slice` is an unstable sort with the strict `Before` comparator; it is
modelled by `List.insertionSort` on `≤` of `LastIPNetworkChange`, which
produces the same list whenever the change times are pairwise distinct (the
hypothesis under which the characterisation below is stated).
-/

structure HostInfoIP where
  enodeID : Nat
  ip : Nat
  lastIPNetworkChange : Nat
deriving DecidableEq, Repr

/-- Comparator of the `sort.Slice` call. -/
def ipTimeLE (a b : HostInfoIP) : Prop :=
  a.lastIPNetworkChange ≤ b.lastIPNetworkChange

instance : DecidableRel ipTimeLE := fun a b =>
  Nat.decLe a.lastIPNetworkChange b.lastIPNetworkChange

instance : IsTotal HostInfoIP ipTimeLE := ⟨fun a b => Nat.le_total _ _⟩

instance : IsTrans HostInfoIP ipTimeLE := ⟨fun _ _ _ => Nat.le_trans⟩

/-- The greedy subnet filter loop (`ipFilter.Filtered` / `ipFilter.Add`),
with `seen` the set of subnets already added. -/
def filterIPLoop (subnet : Nat → Nat) : List HostInfoIP → List Nat → List Nat
  | [], _ => []
  | h :: rest, seen =>
    if subnet h.ip ∈ seen then h.enodeID :: filterIPLoop subnet rest seen
    else filterIPLoop subnet rest (subnet h.ip :: seen)

/-- Embedding of `FilterIPViolationHosts`: when the check is disabled return
nothing; otherwise ids missing from the tree are bad, the remaining host
infos are sorted by ascending `LastIPNetworkChange`, and the greedy subnet
filter marks the rest. -/
def FilterIPViolationHosts (check : Bool) (tree : Nat → Option HostInfoIP)
    (subnet : Nat → Nat) (hostIDs : List Nat) : List Nat :=
  if check = false then []
  else
    let missing := hostIDs.filter (fun id => (tree id).isNone)
    let hostsInfo := hostIDs.filterMap tree
    let sorted := hostsInfo.insertionSort ipTimeLE
    missing ++ filterIPLoop subnet sorted []

/-- Membership in the greedy filter output: exactly the hosts some earlier
list entry (or the initial `seen` set) already covered. -/
theorem filterIPLoop_mem (subnet : Nat → Nat) :
    ∀ (L : List HostInfoIP) (seen : List Nat) (x : Nat),
      x ∈ filterIPLoop subnet L seen ↔
        ∃ l1 h l2, L = l1 ++ h :: l2 ∧ h.enodeID = x ∧
          (subnet h.ip ∈ seen ∨ ∃ h' ∈ l1, subnet h'.ip = subnet h.ip) := by
  intro L
  induction L with
  | nil =>
    intro seen x
    simp [filterIPLoop]
  | cons h rest ih =>
    intro seen x
    by_cases hseen : subnet h.ip ∈ seen
    · simp only [filterIPLoop, if_pos hseen, List.mem_cons]
      constructor
      · rintro (rfl | hx)
        · exact ⟨[], h, rest, rfl, rfl, Or.inl hseen⟩
        · obtain ⟨l1, g, l2, hsplit, hgid, hcond⟩ := (ih seen x).mp hx
          refine ⟨h :: l1, g, l2, by rw [hsplit]; rfl, hgid, ?_⟩
          rcases hcond with hc | ⟨h', hh', hsub⟩
          · exact Or.inl hc
          · exact Or.inr ⟨h', List.mem_cons_of_mem h hh', hsub⟩
      · rintro ⟨l1, g, l2, hsplit, hgid, hcond⟩
        cases l1 with
        | nil =>
          simp only [List.nil_append, List.cons.injEq] at hsplit
          left
          rw [← hgid, hsplit.1]
        | cons a l1' =>
          simp only [List.cons_append, List.cons.injEq] at hsplit
          right
          apply (ih seen x).mpr
          refine ⟨l1', g, l2, hsplit.2, hgid, ?_⟩
          rcases hcond with hc | ⟨h', hh', hsub⟩
          · exact Or.inl hc
          · rcases List.mem_cons.mp hh' with rfl | hh''
            · left
              rw [← hsub, ← hsplit.1]
              exact hseen
            · exact Or.inr ⟨h', hh'', hsub⟩
    · simp only [filterIPLoop, if_neg hseen]
      constructor
      · intro hx
        obtain ⟨l1, g, l2, hsplit, hgid, hcond⟩ := (ih (subnet h.ip :: seen) x).mp hx
        refine ⟨h :: l1, g, l2, by rw [hsplit]; rfl, hgid, ?_⟩
        rcases hcond with hc | ⟨h', hh', hsub⟩
        · rcases List.mem_cons.mp hc with hch | hcs
          · exact Or.inr ⟨h, List.mem_cons_self h l1, hch.symm⟩
          · exact Or.inl hcs
        · exact Or.inr ⟨h', List.mem_cons_of_mem h hh', hsub⟩
      · rintro ⟨l1, g, l2, hsplit, hgid, hcond⟩
        cases l1 with
        | nil =>
          simp only [List.nil_append, List.cons.injEq] at hsplit
          rcases hcond with hc | ⟨h', hh', _⟩
          · rw [← hsplit.1] at hc
            exact absurd hc hseen
          · exact absurd hh' (List.not_mem_nil h')
        | cons a l1' =>
          simp only [List.cons_append, List.cons.injEq] at hsplit
          apply (ih (subnet h.ip :: seen) x).mpr
          refine ⟨l1', g, l2, hsplit.2, hgid, ?_⟩
          rcases hcond with hc | ⟨h', hh', hsub⟩
          · exact Or.inl (List.mem_cons_of_mem _ hc)
          · rcases List.mem_cons.mp hh' with rfl | hh''
            · left
              rw [← hsub, ← hsplit.1]
              exact List.mem_cons_self _ _
            · exact Or.inr ⟨h', hh'', hsub⟩

/-- In a list strictly sorted by change time, an element with a strictly
smaller time than `b` sits in the prefix before `b`. -/
theorem sorted_mem_split {L : List HostInfoIP}
    (hs : L.Pairwise (fun a b => a.lastIPNetworkChange < b.lastIPNetworkChange))
    {a b : HostInfoIP} (ha : a ∈ L) (hb : b ∈ L)
    (hab : a.lastIPNetworkChange < b.lastIPNetworkChange) :
    ∃ l1 l2, L = l1 ++ b :: l2 ∧ a ∈ l1 := by
  induction L with
  | nil => exact absurd hb (List.not_mem_nil b)
  | cons c rest ih =>
    have hpair := List.pairwise_cons.mp hs
    rcases List.mem_cons.mp hb with rfl | hbr
    · -- b is the head: a must be before it, impossible
      rcases List.mem_cons.mp ha with rfl | har
      · omega
      · have := hpair.1 a har
        omega
    · rcases List.mem_cons.mp ha with rfl | har
      · obtain ⟨l1', l2', hsplit⟩ := List.append_of_mem hbr
        exact ⟨a :: l1', l2', by rw [hsplit, List.cons_append], List.mem_cons_self a l1'⟩
      · obtain ⟨l1', l2', hsplit, hal1⟩ := ih hpair.2 har hbr
        exact ⟨c :: l1', l2', by rw [hsplit, List.cons_append], List.mem_cons_of_mem c hal1⟩

/-- Hosts of the filter scenario: three hosts in the `/24` subnet of the
integer-coded addresses `2561 = 10*256+1`, `2562`, `2563` with change times
`10 < 20 < 30`. -/
def c7Tree : Nat → Option HostInfoIP := fun id =>
  if id = 1 then some ⟨1, 2561, 10⟩
  else if id = 2 then some ⟨2, 2562, 20⟩
  else if id = 3 then some ⟨3, 2563, 30⟩
  else none

/-- C7: with the check enabled, all candidates present in the pool, no
duplicate candidates and pairwise distinct change times, an id is returned
as bad exactly when some other candidate in the same subnet changed its IP
strictly earlier (so the earliest-changed host of each subnet group is never
returned); and the three-hosts-one-subnet scenario returns `[h2, h3]`. -/
theorem filterIPViolationHosts_spec (tree : Nat → Option HostInfoIP)
    (subnet : Nat → Nat) (hostIDs : List Nat)
    (hall : ∀ id ∈ hostIDs, ∃ h, tree id = some h)
    (hid : ∀ id h, tree id = some h → h.enodeID = id)
    (hnd : hostIDs.Nodup)
    (htimes : ∀ id₁ id₂ h₁ h₂, id₁ ∈ hostIDs → id₂ ∈ hostIDs → id₁ ≠ id₂ →
      tree id₁ = some h₁ → tree id₂ = some h₂ →
      h₁.lastIPNetworkChange ≠ h₂.lastIPNetworkChange) :
    (∀ id h, id ∈ hostIDs → tree id = some h →
      (id ∈ FilterIPViolationHosts true tree subnet hostIDs ↔
        ∃ id' h', id' ∈ hostIDs ∧ tree id' = some h' ∧ id' ≠ id ∧
          subnet h'.ip = subnet h.ip ∧
          h'.lastIPNetworkChange < h.lastIPNetworkChange)) ∧
    FilterIPViolationHosts true c7Tree (fun ip => ip / 256) [1, 2, 3] = [2, 3] := by
  refine ⟨?_, by decide⟩
  intro id h hmem htree
  -- notation for the pieces of the function
  have hmissing : hostIDs.filter (fun id => (tree id).isNone) = [] := by
    rw [List.filter_eq_nil_iff]
    intro a ha
    obtain ⟨g, hg⟩ := hall a ha
    simp [hg]
  set infos := hostIDs.filterMap tree with hinfdef
  set sorted := infos.insertionSort ipTimeLE with hsortdef
  have hres : FilterIPViolationHosts true tree subnet hostIDs =
      filterIPLoop subnet sorted [] := by
    unfold FilterIPViolationHosts
    rw [if_neg (by simp)]
    rw [hmissing]
    rfl
  -- membership bridges between ids and host infos
  have hmeminfos : ∀ g, g ∈ infos ↔ ∃ idg ∈ hostIDs, tree idg = some g := by
    intro g
    rw [hinfdef]
    exact List.mem_filterMap
  have hsortperm : sorted.Perm infos := List.perm_insertionSort ipTimeLE infos
  have hmemsorted : ∀ g, g ∈ sorted ↔ ∃ idg ∈ hostIDs, tree idg = some g := by
    intro g
    rw [hsortperm.mem_iff]
    exact hmeminfos g
  -- distinct change times inside `infos`, hence strict sortedness
  have hinfotimes : infos.Pairwise
      (fun a b => a.lastIPNetworkChange ≠ b.lastIPNetworkChange) := by
    rw [hinfdef, List.pairwise_filterMap]
    have hndpair : hostIDs.Pairwise (· ≠ ·) := hnd
    apply hndpair.imp_of_mem
    intro id₁ id₂ h1 h2 hne g₁ hg₁ g₂ hg₂
    exact htimes id₁ id₂ g₁ g₂ h1 h2 hne hg₁ hg₂
  have hsortedle : sorted.Sorted ipTimeLE := List.sorted_insertionSort ipTimeLE infos
  have hsortedne : sorted.Pairwise
      (fun a b => a.lastIPNetworkChange ≠ b.lastIPNetworkChange) :=
    (hsortperm.pairwise_iff (fun hab => Ne.symm hab)).mpr hinfotimes
  have hsortedlt : sorted.Pairwise
      (fun a b => a.lastIPNetworkChange < b.lastIPNetworkChange) := by
    have := List.Pairwise.and hsortedle hsortedne
    apply this.imp
    intro a b hab
    have h1 : a.lastIPNetworkChange ≤ b.lastIPNetworkChange := hab.1
    have h2 : a.lastIPNetworkChange ≠ b.lastIPNetworkChange := hab.2
    omega
  -- main equivalence
  rw [hres, filterIPLoop_mem]
  constructor
  · rintro ⟨l1, g, l2, hsplit, hgid, hcond⟩
    rcases hcond with hc | ⟨h', hh', hsub⟩
    · exact absurd hc (List.not_mem_nil _)
    · -- identify g with the host of `id`
      have hg : g ∈ sorted := by
        rw [hsplit]
        exact List.mem_append.mpr (Or.inr (List.mem_cons_self g l2))
      obtain ⟨idg, hidg, htreeg⟩ := (hmemsorted g).mp hg
      have : g.enodeID = idg := hid idg g htreeg
      have hidg_eq : idg = id := by rw [← this, hgid]
      subst hidg_eq
      have hgh : g = h := by
        rw [htreeg] at htree
        exact Option.some.inj htree
      subst hgh
      have hh'sorted : h' ∈ sorted := by
        rw [hsplit]
        exact List.mem_append.mpr (Or.inl hh')
      obtain ⟨id', hid'mem, htree'⟩ := (hmemsorted h').mp hh'sorted
      have hlt : h'.lastIPNetworkChange < g.lastIPNetworkChange := by
        rw [hsplit] at hsortedlt
        have := (List.pairwise_append.mp hsortedlt).2.2
        exact this h' hh' g (List.mem_cons_self g l2)
      refine ⟨id', h', hid'mem, htree', ?_, hsub, hlt⟩
      intro hcon
      subst hcon
      rw [htree'] at htreeg
      have : h' = g := Option.some.inj htreeg
      rw [this] at hlt
      omega
  · rintro ⟨id', h', hid'mem, htree', hne, hsub, hlt⟩
    have hhin : h ∈ sorted := (hmemsorted h).mpr ⟨id, hmem, htree⟩
    have hh'in : h' ∈ sorted := (hmemsorted h').mpr ⟨id', hid'mem, htree'⟩
    obtain ⟨l1, l2, hsplit, hh'l1⟩ := sorted_mem_split hsortedlt hh'in hhin hlt
    exact ⟨l1, h, l2, hsplit, hid id h htree, Or.inr ⟨h', hh'l1, hsub⟩⟩

/-- Witness for `filterIPViolationHosts_spec`: in the concrete scenario,
host 2 is returned because host 1 shares its subnet and changed earlier. -/
theorem filterIPViolationHosts_spec_witness :
    (2 : Nat) ∈ FilterIPViolationHosts true c7Tree (fun ip => ip / 256) [1, 2, 3] := by
  have hall : ∀ id ∈ [1, 2, 3], ∃ h, c7Tree id = some h := by
    intro id hmem
    fin_cases hmem
    · exact ⟨⟨1, 2561, 10⟩, rfl⟩
    · exact ⟨⟨2, 2562, 20⟩, rfl⟩
    · exact ⟨⟨3, 2563, 30⟩, rfl⟩
  have hid : ∀ id h, c7Tree id = some h → h.enodeID = id := by
    intro id h htree
    unfold c7Tree at htree
    split_ifs at htree with h1 h2 h3
    · subst h1
      injection htree with hh
      rw [← hh]
    · subst h2
      injection htree with hh
      rw [← hh]
    · subst h3
      injection htree with hh
      rw [← hh]
  have htimes : ∀ id₁ id₂ h₁ h₂, id₁ ∈ [1, 2, 3] → id₂ ∈ [1, 2, 3] → id₁ ≠ id₂ →
      c7Tree id₁ = some h₁ → c7Tree id₂ = some h₂ →
      h₁.lastIPNetworkChange ≠ h₂.lastIPNetworkChange := by
    intro id₁ id₂ h₁ h₂ hm1 hm2 hne ht1 ht2
    fin_cases hm1 <;> fin_cases hm2 <;>
      first
        | exact absurd rfl hne
        | (injection ht1 with e1
           injection ht2 with e2
           rw [← e1, ← e2]
           decide)
  have hspec := filterIPViolationHosts_spec c7Tree (fun ip => ip / 256) [1, 2, 3]
    hall hid (by decide) htimes
  exact (hspec.1 2 ⟨2, 2562, 20⟩ (by decide) rfl).mpr
    ⟨1, ⟨1, 2561, 10⟩, by decide, rfl, by decide, by decide, by decide⟩

/-!
## §8  DPoS precompile validation
(`internal/ethapi/precompiled_contract_tx_api.go`)

Addresses are modelled as `Nat` (`common.BytesToAddress([]byte{13})` is the
address 13).  `common.HexToAddress` and `unit.ParseCurrency` are outside the
given sources and enter as function parameters.  State cells
(`GetState(addr, key)`) are modelled as integers with 0 for the empty hash;
`hash.Big()` of the empty hash is 0, so the guarded read equals the cell
value.  Go map iteration order over the fields is unspecified; the embedding
processes the field list in the given order (in every scenario below at most
one field is invalid, so the outcome does not depend on the order).
-/

/-- `interface{}` values of the fields map, as far as the checks look. -/
inductive FieldVal
  | str (s : String)
  | other
deriving DecidableEq, Repr

inductive DposTxErr
  | ratioNotStringFormat
  | parseStringToUint
  | invalidAwardDistributionRatio
  | fromNotStringFormat
  | depositNotStringFormat
  | parseStringToBigInt
  | candidatesNotStringFormat
  | beyondMaxVoteSize
  | unknownParameter
  | balanceNotEnoughCandidateThreshold
  | depositValueNotSuitable
  | candidateDepositTooLow
  | notCandidate
  | emptyInput
  | hasNotVote
  | unknownPrecompileContractAddress
deriving DecidableEq, Repr

/-- `minDeposit = big.NewInt(1e18)`. -/
def minDepositApi : Int := 1000000000000000000

/-- `candidateThreshold = big.NewInt(1e18)`. -/
def candidateThresholdApi : Int := 1000000000000000000

/-- `MaxVoteCount = 30`. -/
def maxVoteCountApi : Nat := 30

/-- `strconv.ParseUint(str, 10, 8)`: a non-empty all-digit decimal string
whose value fits in 8 bits. -/
def parseUint10_8 (s : String) : Option Nat :=
  if s.length = 0 then none
  else if s.data.all (fun c => c.isDigit) then
    let v := s.data.foldl (fun acc c => acc * 10 + (c.toNat - 48)) 0
    if v < 256 then some v else none
  else none

structure PrecompiledContractTxArgs where
  fromAddr : Nat
  toAddr : Nat
  value : Int
  gas : Nat
  input : Option (List Nat)
deriving DecidableEq, Repr

/-- `NewPrecompiledContractTxArgs`: a nil input is replaced by a fresh empty
byte slice (so `args.Input` is never nil), a nil value by zero. -/
def NewPrecompiledContractTxArgs (fromAddr toAddr : Nat) (input : Option (List Nat))
    (value : Option Int) (gas : Nat) : PrecompiledContractTxArgs :=
  { fromAddr := fromAddr, toAddr := toAddr, value := value.getD 0, gas := gas
    input := some (input.getD []) }

/-- The field loop of `ParsePrecompileContractTxArgs` (lines 444–511),
accumulating `data`, `from` and `deposit` (zero values when absent). -/
def parseFields (hexToAddress : String → Nat) (parseCurrency : String → Option Int) :
    List (String × FieldVal) → Option (List Nat) → Nat → Int →
    Except DposTxErr (Option (List Nat) × Nat × Int)
  | [], data, fromAddr, deposit => .ok (data, fromAddr, deposit)
  | (key, v) :: rest, data, fromAddr, deposit =>
    match key with
    | "ratio" =>
      match v with
      | .str s =>
        match parseUint10_8 s with
        | none => .error .parseStringToUint
        | some ratio =>
          if 100 < ratio then .error .invalidAwardDistributionRatio
          else parseFields hexToAddress parseCurrency rest (some [ratio]) fromAddr deposit
      | _ => .error .ratioNotStringFormat
    | "from" =>
      match v with
      | .str s => parseFields hexToAddress parseCurrency rest data (hexToAddress s) deposit
      | _ => .error .fromNotStringFormat
    | "deposit" =>
      match v with
      | .str s =>
        match parseCurrency s with
        | none => .error .parseStringToBigInt
        | some d => parseFields hexToAddress parseCurrency rest data fromAddr d
      | _ => .error .depositNotStringFormat
    | "candidates" =>
      match v with
      | .str s =>
        let hexAddrs := s.splitOn ","
        if maxVoteCountApi < hexAddrs.length then .error .beyondMaxVoteSize
        else parseFields hexToAddress parseCurrency rest
          (some (hexAddrs.map hexToAddress)) fromAddr deposit
      | _ => .error .candidatesNotStringFormat
    | _ => .error .unknownParameter

/-- Embedding of `ParsePrecompileContractTxArgs`. -/
def ParsePrecompileContractTxArgs (hexToAddress : String → Nat)
    (parseCurrency : String → Option Int) (toA : Nat) (gas : Nat)
    (fields : List (String × FieldVal)) : Except DposTxErr PrecompiledContractTxArgs :=
  match parseFields hexToAddress parseCurrency fields none 0 0 with
  | .error e => .error e
  | .ok (data, fromAddr, deposit) =>
    .ok (NewPrecompiledContractTxArgs fromAddr toA data (some deposit) gas)

structure StateDB where
  balance : Nat → Int
  candidateDepositCell : Nat → Int
  voteDepositCell : Nat → Int

/-- Embedding of `CheckDposOperationTx` (lines 363–437). -/
def CheckDposOperationTx (stateDB : StateDB) (args : PrecompiledContractTxArgs) :
    Option DposTxErr :=
  let balance := stateDB.balance args.fromAddr
  if args.toAddr = 13 then
    if balance < candidateThresholdApi then some .balanceNotEnoughCandidateThreshold
    else
      let voteDeposit :=
        if stateDB.voteDepositCell args.fromAddr ≠ 0 then stateDB.voteDepositCell args.fromAddr
        else 0
      let allowedBal := balance - voteDeposit
      if args.value ≤ 0 ∨ allowedBal < args.value then some .depositValueNotSuitable
      else if args.value < minDepositApi then some .candidateDepositTooLow
      else none
  else if args.toAddr = 14 then
    if stateDB.candidateDepositCell args.fromAddr = 0 then some .notCandidate
    else none
  else if args.toAddr = 15 then
    if args.input = none then some .emptyInput
    else
      let candidateDeposit :=
        if stateDB.candidateDepositCell args.fromAddr ≠ 0 then
          stateDB.candidateDepositCell args.fromAddr
        else 0
      let allowedBal := balance - candidateDeposit
      if args.value ≤ 0 ∨ allowedBal < args.value then some .depositValueNotSuitable
      else none
  else if args.toAddr = 16 then
    if stateDB.voteDepositCell args.fromAddr = 0 then some .hasNotVote
    else none
  else some .unknownPrecompileContractAddress

/-- The validation part of `SendApplyCandidateTx` (`to = 0x0D = 13`): parse
the fields, then run the DPoS check; `none` means the transaction proceeds
to signing and submission. -/
def sendApplyCandidateTxCheck (hexToAddress : String → Nat)
    (parseCurrency : String → Option Int) (stateDB : StateDB)
    (fields : List (String × FieldVal)) : Option DposTxErr :=
  match ParsePrecompileContractTxArgs hexToAddress parseCurrency 13 1000000 fields with
  | .error e => some e
  | .ok args => CheckDposOperationTx stateDB args

/-- Environment of the C9 scenarios: the sender parses to address 7 and the
deposit strings to the claimed amounts. -/
def c9Hex : String → Nat := fun _ => 7

def c9Currency : String → Option Int := fun s =>
  if s = "1.5dx" then some 1500000000000000000
  else if s = "0.5dx" then some 500000000000000000
  else none

def c9State (voteDeposit : Int) : StateDB :=
  { balance := fun _ => 2000000000000000000
    candidateDepositCell := fun _ => 0
    voteDepositCell := fun _ => voteDeposit }

def c9Fields (deposit ratio : String) : List (String × FieldVal) :=
  [("from", .str "0xabc"), ("deposit", .str deposit), ("ratio", .str ratio)]

/-- C9: (general) for apply-candidate fields `from`/`deposit`/`ratio` whose
deposit string parses to `dep`, validation succeeds iff the ratio is a
decimal string whose value is at most 100, the balance is at least the
candidate threshold, and `0 < dep ≤ balance − voteDeposit` with
`dep ≥ minDeposit`; (concrete) balance `2·10¹⁸`, voteDeposit 0, deposit
`1.5·10¹⁸`, ratio `"50"` passes; ratio `"101"` gives
`ErrInvalidAwardDistributionRatio`; deposit `5·10¹⁷` gives
`ErrCandidateDepositTooLow`; voteDeposit `1.8·10¹⁸` gives
`ErrDepositValueNotSuitable`. -/
theorem sendApplyCandidateTx_validation
    (hexToAddress : String → Nat) (parseCurrency : String → Option Int)
    (stateDB : StateDB) (f d r : String) (dep : Int)
    (hd : parseCurrency d = some dep) :
    (sendApplyCandidateTxCheck hexToAddress parseCurrency stateDB
        [("from", .str f), ("deposit", .str d), ("ratio", .str r)] = none ↔
      ((∃ ratio, parseUint10_8 r = some ratio ∧ ratio ≤ 100) ∧
        candidateThresholdApi ≤ stateDB.balance (hexToAddress f) ∧
        0 < dep ∧
        dep ≤ stateDB.balance (hexToAddress f) -
          stateDB.voteDepositCell (hexToAddress f) ∧
        minDepositApi ≤ dep)) ∧
    sendApplyCandidateTxCheck c9Hex c9Currency (c9State 0)
      (c9Fields "1.5dx" "50") = none ∧
    sendApplyCandidateTxCheck c9Hex c9Currency (c9State 0)
      (c9Fields "1.5dx" "101") = some .invalidAwardDistributionRatio ∧
    sendApplyCandidateTxCheck c9Hex c9Currency (c9State 0)
      (c9Fields "0.5dx" "50") = some .candidateDepositTooLow ∧
    sendApplyCandidateTxCheck c9Hex c9Currency (c9State 1800000000000000000)
      (c9Fields "1.5dx" "50") = some .depositValueNotSuitable := by
  have hvd : ∀ (x : Int), (if x ≠ 0 then x else 0) = x := by
    intro x
    by_cases h : x = 0
    · simp [h]
    · simp [h]
  have hcheck : ∀ (sdb : StateDB) (fromA : Nat) (v : Int) (g : Nat)
      (inp : Option (List Nat)),
      CheckDposOperationTx sdb
        { fromAddr := fromA, toAddr := 13, value := v, gas := g, input := inp } =
        (if sdb.balance fromA < candidateThresholdApi then
          some DposTxErr.balanceNotEnoughCandidateThreshold
        else if v ≤ 0 ∨ sdb.balance fromA - sdb.voteDepositCell fromA < v then
          some DposTxErr.depositValueNotSuitable
        else if v < minDepositApi then some DposTxErr.candidateDepositTooLow
        else none) := by
    intro sdb fromA v g inp
    unfold CheckDposOperationTx
    simp only [hvd]
    rfl
  refine ⟨?_, by rfl, by rfl, by rfl, by rfl⟩
  unfold sendApplyCandidateTxCheck ParsePrecompileContractTxArgs
  have h1 : parseFields hexToAddress parseCurrency
      [("from", FieldVal.str f), ("deposit", FieldVal.str d), ("ratio", FieldVal.str r)]
      none 0 0 =
      match parseUint10_8 r with
      | none => Except.error DposTxErr.parseStringToUint
      | some ratio =>
        if 100 < ratio then Except.error DposTxErr.invalidAwardDistributionRatio
        else Except.ok (some [ratio], hexToAddress f, dep) := by
    show (match parseCurrency d with
      | none => Except.error DposTxErr.parseStringToBigInt
      | some dp => parseFields hexToAddress parseCurrency
          [("ratio", FieldVal.str r)] none (hexToAddress f) dp) = _
    rw [hd]
    rfl
  cases hr : parseUint10_8 r with
  | none =>
    simp only [hr] at h1
    rw [h1]
    show some DposTxErr.parseStringToUint = none ↔ _
    constructor
    · intro h
      exact absurd h (by simp)
    · rintro ⟨⟨ratio, hratio, _⟩, _⟩
      exact absurd hratio (by simp)
  | some ratio =>
    simp only [hr] at h1
    by_cases hr100 : 100 < ratio
    · rw [if_pos hr100] at h1
      rw [h1]
      show some DposTxErr.invalidAwardDistributionRatio = none ↔ _
      constructor
      · intro h
        exact absurd h (by simp)
      · rintro ⟨⟨ratio2, hratio2, hle⟩, _⟩
        have : ratio = ratio2 := Option.some.inj hratio2
        omega
    · rw [if_neg hr100] at h1
      rw [h1]
      show CheckDposOperationTx stateDB
        { fromAddr := hexToAddress f, toAddr := 13, value := dep, gas := 1000000
          input := some ((some [ratio]).getD []) } = none ↔ _
      rw [hcheck]
      set bal := stateDB.balance (hexToAddress f) with hbal
      set vd := stateDB.voteDepositCell (hexToAddress f) with hvddef
      by_cases hb : bal < candidateThresholdApi
      · rw [if_pos hb]
        constructor
        · intro h
          exact absurd h (by simp)
        · rintro ⟨_, hthr, _⟩
          omega
      · rw [if_neg hb]
        by_cases hv : dep ≤ 0 ∨ bal - vd < dep
        · rw [if_pos hv]
          constructor
          · intro h
            exact absurd h (by simp)
          · rintro ⟨_, _, hpos, hle, _⟩
            omega
        · rw [if_neg hv]
          push_neg at hv
          by_cases hmin : dep < minDepositApi
          · rw [if_pos hmin]
            constructor
            · intro h
              exact absurd h (by simp)
            · rintro ⟨_, _, _, _, hge⟩
              omega
          · rw [if_neg hmin]
            constructor
            · intro _
              exact ⟨⟨ratio, rfl, by omega⟩, by omega, by omega, by omega, by omega⟩
            · intro _
              rfl

/-- Witness for `sendApplyCandidateTx_validation`: the happy-path scenario
derived through the general equivalence. -/
theorem sendApplyCandidateTx_validation_witness :
    sendApplyCandidateTxCheck c9Hex c9Currency (c9State 0)
      [("from", .str "0xabc"), ("deposit", .str "1.5dx"), ("ratio", .str "50")] =
      none := by
  have h := sendApplyCandidateTx_validation c9Hex c9Currency (c9State 0)
    "0xabc" "1.5dx" "50" 1500000000000000000 (by decide)
  exact h.1.mpr (by decide)

/-!
## §9  `checkValidCandidate`
(`consensus/dpos/candidate.go`, lines 129–160)

`minDeposit = 1e18 camel × 10⁴` from `consensus/dpos/defaults.go`;
`RewardRatioDenominator = 100`.  The Dip8 flag and `minDepositAfterDip8` are
outside the given sources and are parameters.  The state accessors
(`GetCandidateDeposit`, `GetRewardRatioNumerator`, `GetAvailableBalance`)
are modelled as fields of a state record for the candidate's address.
-/

/-- `minDeposit = common.NewBigIntUint64(1e18).MultInt64(10000)`. -/
def minDepositDpos : Int := 10000000000000000000000

/-- `RewardRatioDenominator`. -/
def rewardRatioDenominator : Nat := 100

structure CandidateState where
  candidateDeposit : Int
  rewardRatioNumerator : Nat
  availableBalance : Int
deriving DecidableEq, Repr

inductive CandidateErr
  | insufficientDepositAfterDip8
  | insufficientDeposit
  | invalidRewardRatio
  | decreasingDeposit
  | decreasingRewardRatio
  | insufficientBalance
deriving DecidableEq, Repr

/-- Embedding of `checkValidCandidate`. -/
def checkValidCandidate (isDip8 : Bool) (minDepositAfterDip8 : Int)
    (st : CandidateState) (deposit : Int) (rewardRatio : Nat) : Option CandidateErr :=
  if isDip8 = true ∧ deposit < minDepositAfterDip8 then some .insufficientDepositAfterDip8
  else if deposit < minDepositDpos then some .insufficientDeposit
  else if rewardRatioDenominator < rewardRatio then some .invalidRewardRatio
  else
    let prevDeposit := st.candidateDeposit
    if deposit < prevDeposit then some .decreasingDeposit
    else
      let prevRewardRatio := st.rewardRatioNumerator
      if rewardRatio < prevRewardRatio then some .decreasingRewardRatio
      else
        let increasedDeposit := deposit - prevDeposit
        if st.availableBalance < increasedDeposit then some .insufficientBalance
        else none

/-- C10: `checkValidCandidate` rejects every application whose deposit is
strictly below the stored deposit and every one whose reward ratio is
strictly below the stored ratio; and once the earlier checks pass, it
requires the available balance to cover only the *increase*
`deposit − prevDeposit`, not the full deposit. -/
theorem checkValidCandidate_spec :
    (∀ (isDip8 : Bool) (mdA : Int) (st : CandidateState) (deposit : Int)
        (rewardRatio : Nat), deposit < st.candidateDeposit →
      ∃ e, checkValidCandidate isDip8 mdA st deposit rewardRatio = some e) ∧
    (∀ (isDip8 : Bool) (mdA : Int) (st : CandidateState) (deposit : Int)
        (rewardRatio : Nat), rewardRatio < st.rewardRatioNumerator →
      ∃ e, checkValidCandidate isDip8 mdA st deposit rewardRatio = some e) ∧
    (∀ (isDip8 : Bool) (mdA : Int) (st : CandidateState) (deposit : Int)
        (rewardRatio : Nat),
      (isDip8 = true → mdA ≤ deposit) → minDepositDpos ≤ deposit →
      rewardRatio ≤ rewardRatioDenominator → st.candidateDeposit ≤ deposit →
      st.rewardRatioNumerator ≤ rewardRatio →
      (checkValidCandidate isDip8 mdA st deposit rewardRatio = none ↔
        deposit - st.candidateDeposit ≤ st.availableBalance)) := by
  refine ⟨?_, ?_, ?_⟩
  · intro isDip8 mdA st deposit rewardRatio hdec
    unfold checkValidCandidate
    by_cases h1 : isDip8 = true ∧ deposit < mdA
    · exact ⟨_, by rw [if_pos h1]⟩
    · rw [if_neg h1]
      by_cases h2 : deposit < minDepositDpos
      · exact ⟨_, by rw [if_pos h2]⟩
      · rw [if_neg h2]
        by_cases h3 : rewardRatioDenominator < rewardRatio
        · exact ⟨_, by rw [if_pos h3]⟩
        · rw [if_neg h3]
          exact ⟨_, by rw [if_pos hdec]⟩
  · intro isDip8 mdA st deposit rewardRatio hdec
    unfold checkValidCandidate
    by_cases h1 : isDip8 = true ∧ deposit < mdA
    · exact ⟨_, by rw [if_pos h1]⟩
    · rw [if_neg h1]
      by_cases h2 : deposit < minDepositDpos
      · exact ⟨_, by rw [if_pos h2]⟩
      · rw [if_neg h2]
        by_cases h3 : rewardRatioDenominator < rewardRatio
        · exact ⟨_, by rw [if_pos h3]⟩
        · rw [if_neg h3]
          by_cases h4 : deposit < st.candidateDeposit
          · exact ⟨_, by rw [if_pos h4]⟩
          · rw [if_neg h4]
            exact ⟨_, by rw [if_pos hdec]⟩
  · intro isDip8 mdA st deposit rewardRatio hdip hmin hratio hdep hrr
    unfold checkValidCandidate
    have h1 : ¬ (isDip8 = true ∧ deposit < mdA) := by
      rintro ⟨hd8, hlt⟩
      have := hdip hd8
      omega
    rw [if_neg h1, if_neg (by omega), if_neg (by omega), if_neg (by omega),
      if_neg (by omega)]
    by_cases hbal : st.availableBalance < deposit - st.candidateDeposit
    · rw [if_pos hbal]
      constructor
      · intro h
        exact absurd h (by simp)
      · intro h
        omega
    · rw [if_neg hbal]
      constructor
      · intro _
        omega
      · intro _
        rfl

/-- Witness for `checkValidCandidate_spec`: an application whose full
deposit (2·10²²) exceeds the available balance (6·10²¹) but whose increase
over the stored deposit (5·10²¹) does not, passes the validation — the
balance check really is against the increase only. -/
theorem checkValidCandidate_spec_witness :
    checkValidCandidate false 0
      { candidateDeposit := 15000000000000000000000
        rewardRatioNumerator := 30
        availableBalance := 6000000000000000000000 }
      20000000000000000000000 50 = none := by
  have h := checkValidCandidate_spec.2.2 false 0
    { candidateDeposit := 15000000000000000000000
      rewardRatioNumerator := 30
      availableBalance := 6000000000000000000000 }
    20000000000000000000000 50
    (by intro h; exact absurd h (by decide)) (by decide) (by decide) (by decide)
    (by decide)
  exact h.mpr (by decide)

end Godx
